import Mathlib

/-!
Verification of the TransformerEngine sequential compute-pipeline core.

This file shallowly embeds, in Lean 4, the parts of the repository that the
checked properties are about:

* `split_into_self_contained` and `SelfContainedOp` from
  `transformer_engine/pytorch/sequential/compute_pipeline.py`
  (the pipeline partitioner and its forward/backward execution units);
* `_squish` / `_unsquish` from
  `transformer_engine/pytorch/sequential/compute_pipeline_function.py`;
* `force_use_bf16` and the construction order of `ComputePipeline.__init__`;
* the operation descriptors (`Gemm`, `Bias`, `LayerNorm`, `ResidualBegin`,
  `ResidualEnd`, ...) from
  `transformer_engine/pytorch/sequential_new/common_back/ops.py`.

Python `Op` objects are identified by natural-number ids; Python `set`s of ops
become `Finset ℕ`; Python lists become Lean lists; functions that can raise
(`pop` from an empty list, `ValueError`, `assert`) return `Option`/`Except`.
-/

namespace TE

/-- An entry of a fused operation list: either an elementary operation
(identified by id) or a `FusedOp` holding an ordered group of elementary
operations.  Mirrors the `isinstance(x, FusedOp)` discrimination used by
`split_into_self_contained`. -/
inductive Item where
  | single (id : ℕ)
  | fused (ids : List ℕ)
  deriving DecidableEq, Repr

/-- `x.ops if isinstance(x, FusedOp) else [x]` — the elementary decomposition
of a list entry. -/
def Item.ops : Item → List ℕ
  | .single i => [i]
  | .fused l => l

/-- Elementary decomposition of a whole operation list. -/
def elems (l : List Item) : List ℕ := l.flatMap Item.ops

/-- Elementary decomposition as a set (Python `set(...)`). -/
def elemsSet (l : List Item) : Finset ℕ := (elems l).toFinset

/-- A `SelfContainedOp`: an ordered forward group and an ordered backward
group (the `fwds`/`bwds` fields of the Python class). -/
structure SCOp where
  fwds : List Item
  bwds : List Item
  deriving DecidableEq, Repr

/-- One step of the matching loop body of `split_into_self_contained`:
`if op in unmatched_X: unmatched_X.remove(op) else: unmatched_Y.add(op)`. -/
def procStep (p : Finset ℕ × Finset ℕ) (op : ℕ) : Finset ℕ × Finset ℕ :=
  if op ∈ p.1 then (p.1.erase op, p.2) else (p.1, insert op p.2)

/-- The `for op in ops:` loop of `split_into_self_contained`, processing the
decomposition of one popped item against the pending set `pend`; unmatched
members accumulate into `other`. -/
def procOps (pend other : Finset ℕ) (ops : List ℕ) : Finset ℕ × Finset ℕ :=
  ops.foldl procStep (pend, other)

/-- One inner `while` loop of `split_into_self_contained`: while the pending
set `pend` is non-empty, pop the next item off `queue` (failing, as Python
`list.pop(0)` does, when the queue is exhausted), append it to `used`, and
process its members.  Returns the updated opposite pending set, the remaining
queue, and the extended used list. -/
def drain (pend other : Finset ℕ) (queue used : List Item) :
    Option (Finset ℕ × List Item × List Item) :=
  if pend = ∅ then some (other, queue, used)
  else
    match queue with
    | [] => none
    | b :: rest =>
      let p := procOps pend other b.ops
      drain p.1 p.2 rest (used ++ [b])

theorem drain_ifEmpty (other : Finset ℕ) (queue used : List Item) :
    drain ∅ other queue used = some (other, queue, used) := by
  rw [drain.eq_def]
  simp

theorem drain_sub : ∀ {pend other : Finset ℕ} {queue used : List Item}
    {o' : Finset ℕ} {q' u' : List Item},
    drain pend other queue used = some (o', q', u') →
    ∃ taken, u' = used ++ taken ∧ queue = taken ++ q' := by
  intro pend other queue used
  induction pend, other, queue, used using drain.induct with
  | case1 queue other used =>
    intro o' q' u' h
    rw [drain_ifEmpty] at h
    simp only [Option.some.injEq, Prod.mk.injEq] at h
    obtain ⟨-, rfl, rfl⟩ := h
    exact ⟨[], by simp, by simp⟩
  | case2 pend other used hp =>
    intro o' q' u' h
    rw [drain.eq_def, if_neg hp] at h
    exact absurd h (by simp)
  | case3 pend other used hp b rest p =>
    rename_i ih
    intro o' q' u' h
    rw [drain.eq_def, if_neg hp] at h
    obtain ⟨t, ht1, ht2⟩ := ih h
    exact ⟨b :: t, by simp [ht1], by simp [ht2]⟩

theorem drain_le {pend other : Finset ℕ} {queue used : List Item}
    {o' : Finset ℕ} {q' u' : List Item}
    (h : drain pend other queue used = some (o', q', u')) :
    q'.length ≤ queue.length := by
  obtain ⟨t, -, ht⟩ := drain_sub h
  subst ht
  simp

theorem drain_lt {pend other : Finset ℕ} {queue used : List Item}
    {o' : Finset ℕ} {q' u' : List Item}
    (hp : pend ≠ ∅)
    (h : drain pend other queue used = some (o', q', u')) :
    q'.length < queue.length := by
  rw [drain.eq_def, if_neg hp] at h
  match queue, h with
  | b :: rest, h =>
    have := drain_le h
    simp only [List.length_cons]
    omega

/-- The outer matching loop of `split_into_self_contained`
(`while unmatched_fwd_ops or unmatched_bwd_ops:` with its two inner loops):
drain the forward-pending set by popping backward items, then drain the
backward-pending set by popping forward items, and repeat until both pending
sets are empty.  Returns the collected forward and backward groups and the
remaining queues. -/
def matchLoop (ufwd ubwd : Finset ℕ) (fwds bwds usedF usedB : List Item) :
    Option (List Item × List Item × List Item × List Item) :=
  if h : ufwd = ∅ ∧ ubwd = ∅ then some (usedF, usedB, fwds, bwds)
  else
    match h1 : drain ufwd ubwd bwds usedB with
    | none => none
    | some (ubwd1, bwds1, usedB1) =>
      match h2 : drain ubwd1 ∅ fwds usedF with
      | none => none
      | some (ufwd2, fwds1, usedF1) =>
        matchLoop ufwd2 ∅ fwds1 bwds1 usedF1 usedB1
  termination_by fwds.length + bwds.length
  decreasing_by
    by_cases hu : ufwd = ∅
    · have hb : ubwd ≠ ∅ := fun hb => h ⟨hu, hb⟩
      rw [hu, drain_ifEmpty] at h1
      simp only [Option.some.injEq, Prod.mk.injEq] at h1
      obtain ⟨rfl, rfl, rfl⟩ := h1
      have := drain_lt hb h2
      omega
    · have hlt := drain_lt hu h1
      have hle := drain_le h2
      omega

theorem matchLoop_le : ∀ {ufwd ubwd : Finset ℕ} {fwds bwds usedF usedB : List Item}
    {uF uB f' b' : List Item},
    matchLoop ufwd ubwd fwds bwds usedF usedB = some (uF, uB, f', b') →
    f'.length ≤ fwds.length ∧ b'.length ≤ bwds.length := by
  intro ufwd ubwd fwds bwds usedF usedB
  induction ufwd, ubwd, fwds, bwds, usedF, usedB using matchLoop.induct with
  | case1 ufwd ubwd fwds bwds usedF usedB h =>
    intro uF uB f' b' H
    rw [matchLoop.eq_def, dif_pos h] at H
    simp only [Option.some.injEq, Prod.mk.injEq] at H
    obtain ⟨-, -, rfl, rfl⟩ := H
    exact ⟨le_refl _, le_refl _⟩
  | case2 ufwd ubwd fwds bwds usedF usedB h h1 =>
    intro uF uB f' b' H
    rw [matchLoop.eq_def, dif_neg h] at H
    split at H
    · exact absurd H (by simp)
    · rename_i hd
      rw [h1] at hd
      exact absurd hd (by simp)
  | case3 ufwd ubwd fwds bwds usedF usedB h ubwd1 bwds1 usedB1 h1 h2 =>
    intro uF uB f' b' H
    rw [matchLoop.eq_def, dif_neg h] at H
    split at H
    · exact absurd H (by simp)
    · rename_i r1 hd1
      rw [h1] at hd1
      simp only [Option.some.injEq, Prod.mk.injEq] at hd1
      obtain ⟨rfl, rfl, rfl⟩ := hd1
      split at H
      · exact absurd H (by simp)
      · rename_i r2 hd2
        rw [h2] at hd2
        exact absurd hd2 (by simp)
  | case4 ufwd ubwd fwds bwds usedF usedB h ubwd1 bwds1 usedB1 h1 ufwd2 fwds1 usedF1 h2 =>
    rename_i ih
    intro uF uB f' b' H
    rw [matchLoop.eq_def, dif_neg h] at H
    split at H
    · exact absurd H (by simp)
    · rename_i r1 hd1
      rw [h1] at hd1
      simp only [Option.some.injEq, Prod.mk.injEq] at hd1
      obtain ⟨rfl, rfl, rfl⟩ := hd1
      split at H
      · exact absurd H (by simp)
      · rename_i r2 hd2
        rw [h2] at hd2
        simp only [Option.some.injEq, Prod.mk.injEq] at hd2
        obtain ⟨rfl, rfl, rfl⟩ := hd2
        obtain ⟨le1, le2⟩ := ih H
        have le3 := drain_le h1
        have le4 := drain_le h2
        exact ⟨le_trans le1 le4, le_trans le2 le3⟩

/-- `split_into_self_contained(fwds, bwds)` from
`sequential/compute_pipeline.py`: greedily partition the fused forward and
backward lists into `SelfContainedOp`s with matching elementary-operation
sets.  `none` models an uncaught `IndexError` from `pop(0)` on an exhausted
queue. -/
def split_into_self_contained (fwds bwds : List Item) : Option (List SCOp) :=
  match fwds with
  | [] => if bwds.isEmpty then some [] else none
  | fwd :: rest =>
    match h : matchLoop fwd.ops.toFinset ∅ rest bwds [fwd] [] with
    | none => none
    | some (usedF, usedB, fwds1, bwds1) =>
      match split_into_self_contained fwds1 bwds1 with
      | none => none
      | some units => some (⟨usedF, usedB⟩ :: units)
  termination_by fwds.length
  decreasing_by
    have := (matchLoop_le h).1
    simp only [List.length_cons]
    omega

theorem elems_append (a b : List Item) : elems (a ++ b) = elems a ++ elems b := by
  simp [elems]

theorem elemsSet_append (a b : List Item) :
    elemsSet (a ++ b) = elemsSet a ∪ elemsSet b := by
  simp [elemsSet, elems_append]

theorem elemsSet_single (b : Item) : elemsSet [b] = b.ops.toFinset := by
  simp [elemsSet, elems]

theorem procStep_inv {Fixed B : Finset ℕ} {p : Finset ℕ × Finset ℕ} {op : ℕ}
    (h : Fixed ∪ p.2 = B ∪ p.1) :
    Fixed ∪ (procStep p op).2 = insert op B ∪ (procStep p op).1 := by
  have hmem := Finset.ext_iff.mp h
  unfold procStep
  by_cases hop : op ∈ p.1
  · rw [if_pos hop]
    ext a
    have := hmem a
    by_cases ha : a = op <;>
      simp only [Finset.mem_union, Finset.mem_insert, Finset.mem_erase, ha] at this ⊢ <;>
      tauto
  · rw [if_neg hop]
    ext a
    have := hmem a
    by_cases ha : a = op <;>
      simp only [Finset.mem_union, Finset.mem_insert, ha] at this ⊢ <;>
      tauto

theorem procOps_inv : ∀ (ops : List ℕ) {Fixed B pend other : Finset ℕ},
    Fixed ∪ other = B ∪ pend →
    Fixed ∪ (procOps pend other ops).2 =
      (B ∪ ops.toFinset) ∪ (procOps pend other ops).1 := by
  intro ops
  induction ops with
  | nil =>
    intro Fixed B pend other h
    simpa [procOps] using h
  | cons op ops ih =>
    intro Fixed B pend other h
    have hstep := @procStep_inv Fixed B (pend, other) op h
    have hrec := @ih Fixed (insert op B) (procStep (pend, other) op).1
      (procStep (pend, other) op).2 hstep
    have hunfold : procOps pend other (op :: ops) =
        procOps (procStep (pend, other) op).1 (procStep (pend, other) op).2 ops := by
      simp [procOps, List.foldl_cons]
    rw [hunfold]
    rw [hrec]
    congr 1
    ext a
    simp only [Finset.mem_union, Finset.mem_insert, List.toFinset_cons, List.mem_toFinset]
    tauto

theorem drain_inv : ∀ {pend other : Finset ℕ} {queue used : List Item}
    {o' : Finset ℕ} {q' u' : List Item},
    drain pend other queue used = some (o', q', u') →
    ∀ Fixed : Finset ℕ, Fixed ∪ other = elemsSet used ∪ pend →
    Fixed ∪ o' = elemsSet u' := by
  intro pend other queue used
  induction pend, other, queue, used using drain.induct with
  | case1 queue other used =>
    intro o' q' u' h Fixed hJ
    rw [drain_ifEmpty] at h
    simp only [Option.some.injEq, Prod.mk.injEq] at h
    obtain ⟨rfl, -, rfl⟩ := h
    simpa using hJ
  | case2 pend other used hp =>
    intro o' q' u' h Fixed hJ
    rw [drain.eq_def, if_neg hp] at h
    exact absurd h (by simp)
  | case3 pend other used hp b rest p =>
    rename_i ih
    intro o' q' u' h Fixed hJ
    rw [drain.eq_def, if_neg hp] at h
    refine ih h Fixed ?_
    have := procOps_inv b.ops (B := elemsSet used) hJ
    rw [elemsSet_append, elemsSet_single]
    exact this

theorem matchLoop_inv : ∀ {ufwd ubwd : Finset ℕ} {fwds bwds usedF usedB : List Item}
    {uF uB f' b' : List Item},
    matchLoop ufwd ubwd fwds bwds usedF usedB = some (uF, uB, f', b') →
    elemsSet usedF ∪ ubwd = elemsSet usedB ∪ ufwd →
    elemsSet uF = elemsSet uB := by
  intro ufwd ubwd fwds bwds usedF usedB
  induction ufwd, ubwd, fwds, bwds, usedF, usedB using matchLoop.induct with
  | case1 ufwd ubwd fwds bwds usedF usedB h =>
    intro uF uB f' b' H hJ
    rw [matchLoop.eq_def, dif_pos h] at H
    simp only [Option.some.injEq, Prod.mk.injEq] at H
    obtain ⟨rfl, rfl, -, -⟩ := H
    obtain ⟨h1, h2⟩ := h
    rw [h1, h2] at hJ
    simpa using hJ
  | case2 ufwd ubwd fwds bwds usedF usedB h h1 =>
    intro uF uB f' b' H hJ
    rw [matchLoop.eq_def, dif_neg h] at H
    split at H
    · exact absurd H (by simp)
    · rename_i hd
      rw [h1] at hd
      exact absurd hd (by simp)
  | case3 ufwd ubwd fwds bwds usedF usedB h ubwd1 bwds1 usedB1 h1 h2 =>
    intro uF uB f' b' H hJ
    rw [matchLoop.eq_def, dif_neg h] at H
    split at H
    · exact absurd H (by simp)
    · rename_i r1 hd1
      rw [h1] at hd1
      simp only [Option.some.injEq, Prod.mk.injEq] at hd1
      obtain ⟨rfl, rfl, rfl⟩ := hd1
      split at H
      · exact absurd H (by simp)
      · rename_i r2 hd2
        rw [h2] at hd2
        exact absurd hd2 (by simp)
  | case4 ufwd ubwd fwds bwds usedF usedB h ubwd1 bwds1 usedB1 h1 ufwd2 fwds1 usedF1 h2 =>
    rename_i ih
    intro uF uB f' b' H hJ
    rw [matchLoop.eq_def, dif_neg h] at H
    split at H
    · exact absurd H (by simp)
    · rename_i r1 hd1
      rw [h1] at hd1
      simp only [Option.some.injEq, Prod.mk.injEq] at hd1
      obtain ⟨rfl, rfl, rfl⟩ := hd1
      split at H
      · exact absurd H (by simp)
      · rename_i r2 hd2
        rw [h2] at hd2
        simp only [Option.some.injEq, Prod.mk.injEq] at hd2
        obtain ⟨rfl, rfl, rfl⟩ := hd2
        have hJ1 : elemsSet usedF ∪ ubwd1 = elemsSet usedB1 := by
          have := drain_inv h1 (elemsSet usedF) hJ
          exact this
        have hJ2 : elemsSet usedB1 ∪ ufwd2 = elemsSet usedF1 := by
          have := drain_inv h2 (elemsSet usedB1) (by simpa using hJ1.symm)
          exact this
        refine ih H ?_
        simpa using hJ2.symm

theorem matchLoop_sub : ∀ {ufwd ubwd : Finset ℕ} {fwds bwds usedF usedB : List Item}
    {uF uB f' b' : List Item},
    matchLoop ufwd ubwd fwds bwds usedF usedB = some (uF, uB, f', b') →
    (∃ tf, uF = usedF ++ tf ∧ fwds = tf ++ f') ∧
    (∃ tb, uB = usedB ++ tb ∧ bwds = tb ++ b') := by
  intro ufwd ubwd fwds bwds usedF usedB
  induction ufwd, ubwd, fwds, bwds, usedF, usedB using matchLoop.induct with
  | case1 ufwd ubwd fwds bwds usedF usedB h =>
    intro uF uB f' b' H
    rw [matchLoop.eq_def, dif_pos h] at H
    simp only [Option.some.injEq, Prod.mk.injEq] at H
    obtain ⟨rfl, rfl, rfl, rfl⟩ := H
    exact ⟨⟨[], by simp, by simp⟩, ⟨[], by simp, by simp⟩⟩
  | case2 ufwd ubwd fwds bwds usedF usedB h h1 =>
    intro uF uB f' b' H
    rw [matchLoop.eq_def, dif_neg h] at H
    split at H
    · exact absurd H (by simp)
    · rename_i hd
      rw [h1] at hd
      exact absurd hd (by simp)
  | case3 ufwd ubwd fwds bwds usedF usedB h ubwd1 bwds1 usedB1 h1 h2 =>
    intro uF uB f' b' H
    rw [matchLoop.eq_def, dif_neg h] at H
    split at H
    · exact absurd H (by simp)
    · rename_i r1 hd1
      rw [h1] at hd1
      simp only [Option.some.injEq, Prod.mk.injEq] at hd1
      obtain ⟨rfl, rfl, rfl⟩ := hd1
      split at H
      · exact absurd H (by simp)
      · rename_i r2 hd2
        rw [h2] at hd2
        exact absurd hd2 (by simp)
  | case4 ufwd ubwd fwds bwds usedF usedB h ubwd1 bwds1 usedB1 h1 ufwd2 fwds1 usedF1 h2 =>
    rename_i ih
    intro uF uB f' b' H
    rw [matchLoop.eq_def, dif_neg h] at H
    split at H
    · exact absurd H (by simp)
    · rename_i r1 hd1
      rw [h1] at hd1
      simp only [Option.some.injEq, Prod.mk.injEq] at hd1
      obtain ⟨rfl, rfl, rfl⟩ := hd1
      split at H
      · exact absurd H (by simp)
      · rename_i r2 hd2
        rw [h2] at hd2
        simp only [Option.some.injEq, Prod.mk.injEq] at hd2
        obtain ⟨rfl, rfl, rfl⟩ := hd2
        obtain ⟨⟨tf, htf1, htf2⟩, ⟨tb, htb1, htb2⟩⟩ := ih H
        obtain ⟨t1, ht11, ht12⟩ := drain_sub h1
        obtain ⟨t2, ht21, ht22⟩ := drain_sub h2
        refine ⟨⟨t2 ++ tf, ?_, ?_⟩, ⟨t1 ++ tb, ?_, ?_⟩⟩
        · rw [htf1, ht21]; simp
        · rw [ht22, htf2]; simp
        · rw [htb1, ht11]; simp
        · rw [ht12, htb2]; simp

theorem split_concat : ∀ {fwds bwds : List Item} {units : List SCOp},
    split_into_self_contained fwds bwds = some units →
    (units.map SCOp.fwds).flatten = fwds ∧ (units.map SCOp.bwds).flatten = bwds := by
  intro fwds bwds
  induction fwds, bwds using split_into_self_contained.induct with
  | case1 bwds hb =>
    intro units H
    rw [split_into_self_contained.eq_def] at H
    rw [if_pos hb] at H
    simp only [Option.some.injEq] at H
    subst H
    simp [List.isEmpty_iff.mp hb]
  | case2 bwds hb =>
    intro units H
    rw [split_into_self_contained.eq_def] at H
    rw [if_neg hb] at H
    exact absurd H (by simp)
  | case3 bwds b rest h1 =>
    intro units H
    rw [split_into_self_contained.eq_def] at H
    split at H
    · rename_i heq
      exact absurd heq (by simp)
    · rename_i b2 rest2 heq
      injection heq with hb hr
      subst hb
      subst hr
      split at H
      · exact absurd H (by simp)
      · rename_i hd
        rw [h1] at hd
        exact absurd hd (by simp)
  | case4 bwds b rest usedF usedB fwds1 bwds1 h1 h2 =>
    rename_i ih
    intro units H
    rw [split_into_self_contained.eq_def] at H
    split at H
    · rename_i heq
      exact absurd heq (by simp)
    · rename_i b2 rest2 heq
      injection heq with hb hr
      subst hb
      subst hr
      split at H
      · exact absurd H (by simp)
      · rename_i r hd
        rw [h1] at hd
        simp only [Option.some.injEq, Prod.mk.injEq] at hd
        obtain ⟨rfl, rfl, rfl, rfl⟩ := hd
        split at H
        · exact absurd H (by simp)
        · rename_i us hd2
          rw [h2] at hd2
          exact absurd hd2 (by simp)
  | case5 bwds b rest usedF usedB fwds1 bwds1 h1 units1 h2 =>
    rename_i ih
    intro units H
    rw [split_into_self_contained.eq_def] at H
    split at H
    · rename_i heq
      exact absurd heq (by simp)
    · rename_i b2 rest2 heq
      injection heq with hb hr
      subst hb
      subst hr
      split at H
      · exact absurd H (by simp)
      · rename_i r hd
        rw [h1] at hd
        simp only [Option.some.injEq, Prod.mk.injEq] at hd
        obtain ⟨rfl, rfl, rfl, rfl⟩ := hd
        split at H
        · exact absurd H (by simp)
        · rename_i us hd2
          rw [h2] at hd2
          simp only [Option.some.injEq] at hd2
          subst hd2
          simp only [Option.some.injEq] at H
          subst H
          obtain ⟨ihf, ihb⟩ := ih h2
          obtain ⟨⟨tf, htf1, htf2⟩, ⟨tb, htb1, htb2⟩⟩ := matchLoop_sub h1
          constructor
          · simp only [List.map_cons, List.flatten_cons, ihf]
            rw [htf1, htf2]
            simp
          · simp only [List.map_cons, List.flatten_cons, ihb]
            rw [htb1, htb2]
            simp

theorem matchLoop_exit {ufwd ubwd : Finset ℕ} {fwds bwds usedF usedB : List Item}
    (h : ufwd = ∅ ∧ ubwd = ∅) :
    matchLoop ufwd ubwd fwds bwds usedF usedB = some (usedF, usedB, fwds, bwds) := by
  rw [matchLoop.eq_def, dif_pos h]

theorem matchLoop_step {ufwd ubwd : Finset ℕ} {fwds bwds usedF usedB : List Item}
    {ubwd1 : Finset ℕ} {bwds1 usedB1 : List Item}
    {ufwd2 : Finset ℕ} {fwds1 usedF1 : List Item}
    (h : ¬(ufwd = ∅ ∧ ubwd = ∅))
    (h1 : drain ufwd ubwd bwds usedB = some (ubwd1, bwds1, usedB1))
    (h2 : drain ubwd1 ∅ fwds usedF = some (ufwd2, fwds1, usedF1)) :
    matchLoop ufwd ubwd fwds bwds usedF usedB =
      matchLoop ufwd2 ∅ fwds1 bwds1 usedF1 usedB1 := by
  rw [matchLoop.eq_def, dif_neg h]
  split
  · rename_i hd
    rw [h1] at hd
    exact absurd hd (by simp)
  · rename_i r1 hd1
    rw [h1] at hd1
    simp only [Option.some.injEq, Prod.mk.injEq] at hd1
    obtain ⟨rfl, rfl, rfl⟩ := hd1
    split
    · rename_i hd2
      rw [h2] at hd2
      exact absurd hd2 (by simp)
    · rename_i r2 hd2
      rw [h2] at hd2
      simp only [Option.some.injEq, Prod.mk.injEq] at hd2
      obtain ⟨rfl, rfl, rfl⟩ := hd2
      rfl

theorem split_nil (bwds : List Item) :
    split_into_self_contained [] bwds = if bwds.isEmpty then some [] else none := by
  rw [split_into_self_contained.eq_def]

theorem split_cons {fwd : Item} {rest bwds : List Item}
    {usedF usedB fwds1 bwds1 : List Item}
    (h : matchLoop fwd.ops.toFinset ∅ rest bwds [fwd] [] =
      some (usedF, usedB, fwds1, bwds1)) :
    split_into_self_contained (fwd :: rest) bwds =
      (split_into_self_contained fwds1 bwds1).map
        (fun units => ⟨usedF, usedB⟩ :: units) := by
  rw [split_into_self_contained.eq_def]
  split
  · rename_i heq
    exact absurd heq (by simp)
  · rename_i b2 rest2 heq
    injection heq with hb hr
    subst hb
    subst hr
    split
    · rename_i hd
      rw [h] at hd
      exact absurd hd (by simp)
    · rename_i r hd
      rw [h] at hd
      simp only [Option.some.injEq, Prod.mk.injEq] at hd
      obtain ⟨rfl, rfl, rfl, rfl⟩ := hd
      cases hs : split_into_self_contained fwds1 bwds1 with
      | none => simp [hs]
      | some units => simp [hs]

example : split_into_self_contained [Item.single 0] [Item.single 0] =
    some [⟨[Item.single 0], [Item.single 0]⟩] := by
  have hm : matchLoop (Item.single 0).ops.toFinset ∅ [] [Item.single 0]
      [Item.single 0] [] = some ([Item.single 0], [Item.single 0], [], []) := by
    rw [matchLoop_step (by decide)
      (show drain (Item.single 0).ops.toFinset ∅ [Item.single 0] [] =
        some (∅, [], [Item.single 0]) by decide)
      (show drain ∅ ∅ [] [Item.single 0] =
        some (∅, [], [Item.single 0]) by decide)]
    exact matchLoop_exit ⟨rfl, rfl⟩
  rw [split_cons hm, split_nil]
  rfl

example : split_into_self_contained [Item.single 1] [] = none := by
  rw [split_into_self_contained.eq_def]
  split
  · rename_i heq
    exact absurd heq (by simp)
  · rename_i b2 rest2 heq
    injection heq with hb hr
    subst hb
    subst hr
    split
    · rfl
    · rename_i r hd
      rw [show matchLoop (Item.single 1).ops.toFinset ∅ [] [] [Item.single 1] [] = none from
        by rw [matchLoop.eq_def, dif_neg (by decide)]; rfl] at hd
      exact absurd hd (by simp)

theorem elemsSet_nil : elemsSet ([] : List Item) = ∅ := by
  simp [elemsSet, elems]

theorem split_units_sets : ∀ {fwds bwds : List Item} {units : List SCOp},
    split_into_self_contained fwds bwds = some units →
    ∀ u ∈ units, elemsSet u.fwds = elemsSet u.bwds := by
  intro fwds bwds
  induction fwds, bwds using split_into_self_contained.induct with
  | case1 bwds hb =>
    intro units H
    rw [split_nil, if_pos hb] at H
    simp only [Option.some.injEq] at H
    subst H
    intro u hu
    exact absurd hu (by simp)
  | case2 bwds hb =>
    intro units H
    rw [split_nil, if_neg hb] at H
    exact absurd H (by simp)
  | case3 bwds b rest h1 =>
    intro units H
    rw [split_into_self_contained.eq_def] at H
    split at H
    · rename_i heq
      exact absurd heq (by simp)
    · rename_i b2 rest2 heq
      injection heq with hb hr
      subst hb
      subst hr
      split at H
      · exact absurd H (by simp)
      · rename_i hd
        rw [h1] at hd
        exact absurd hd (by simp)
  | case4 bwds b rest usedF usedB fwds1 bwds1 h1 h2 =>
    rename_i ih
    intro units H
    rw [split_cons h1, h2] at H
    exact absurd H (by simp)
  | case5 bwds b rest usedF usedB fwds1 bwds1 h1 units1 h2 =>
    rename_i ih
    intro units H
    rw [split_cons h1, h2] at H
    simp only [Option.map_some', Option.some.injEq] at H
    subst H
    intro u hu
    rcases List.mem_cons.mp hu with rfl | hu2
    · have hJ : elemsSet [b] ∪ (∅ : Finset ℕ) =
          elemsSet ([] : List Item) ∪ b.ops.toFinset := by
        rw [elemsSet_single, elemsSet_nil]
        simp
      exact matchLoop_inv h1 hJ
    · exact ih h2 u hu2

theorem elems_flatten_map (g : SCOp → List Item) (units : List SCOp) :
    elems ((units.map g).flatten) = units.flatMap (fun u => elems (g u)) := by
  induction units with
  | nil => simp [elems]
  | cons u us ih => simp [elems_append, ih]

theorem split_pairwise (g : SCOp → List Item) {fwds : List Item}
    {units : List SCOp}
    (hc : (units.map g).flatten = fwds)
    (hf : (elems fwds).Nodup) :
    units.Pairwise (fun u v => ∀ o ∈ elems (g u), o ∉ elems (g v)) := by
  rw [← hc, elems_flatten_map] at hf
  have hpw := (List.nodup_flatMap.mp hf).2
  exact hpw.imp (fun hd o ho hv => hd ho hv)

/-- **C1.** Whenever `split_into_self_contained` returns (does not raise), and
the input forward and backward lists decompose to duplicate-free elementary
operation lists, then: every returned `SelfContainedOp`'s forward group and
backward group decompose to exactly the same set of elementary operations;
concatenating the units' `fwds` (resp. `bwds`) lists in output order
reproduces the input forward (resp. backward) list — hence every input item
is placed in exactly one unit; and no elementary operation appears in two
different units (pairwise, on either side). -/
theorem split_into_self_contained_spec {fwds bwds : List Item} {units : List SCOp}
    (h : split_into_self_contained fwds bwds = some units)
    (hf : (elems fwds).Nodup) (hb : (elems bwds).Nodup) :
    (∀ u ∈ units, elemsSet u.fwds = elemsSet u.bwds) ∧
    ((units.map SCOp.fwds).flatten = fwds ∧ (units.map SCOp.bwds).flatten = bwds) ∧
    units.Pairwise (fun u v => ∀ o ∈ elems u.fwds, o ∉ elems v.fwds) ∧
    units.Pairwise (fun u v => ∀ o ∈ elems u.bwds, o ∉ elems v.bwds) := by
  obtain ⟨hcf, hcb⟩ := split_concat h
  exact ⟨split_units_sets h, ⟨hcf, hcb⟩,
    split_pairwise SCOp.fwds hcf hf, split_pairwise SCOp.bwds hcb hb⟩

theorem split_into_self_contained_spec_witness :
    split_into_self_contained [Item.single 0, Item.single 1] [Item.fused [0, 1]] =
      some [⟨[Item.single 0, Item.single 1], [Item.fused [0, 1]]⟩] ∧
    (elems [Item.single 0, Item.single 1]).Nodup ∧
    (elems [Item.fused [0, 1]]).Nodup ∧
    ((∀ u ∈ [SCOp.mk [Item.single 0, Item.single 1] [Item.fused [0, 1]]],
        elemsSet u.fwds = elemsSet u.bwds) ∧
      (([SCOp.mk [Item.single 0, Item.single 1] [Item.fused [0, 1]]].map
          SCOp.fwds).flatten = [Item.single 0, Item.single 1] ∧
        ([SCOp.mk [Item.single 0, Item.single 1] [Item.fused [0, 1]]].map
          SCOp.bwds).flatten = [Item.fused [0, 1]]) ∧
      List.Pairwise (fun u v => ∀ o ∈ elems u.fwds, o ∉ elems v.fwds)
        [SCOp.mk [Item.single 0, Item.single 1] [Item.fused [0, 1]]] ∧
      List.Pairwise (fun u v => ∀ o ∈ elems u.bwds, o ∉ elems v.bwds)
        [SCOp.mk [Item.single 0, Item.single 1] [Item.fused [0, 1]]]) := by
  have hconc : split_into_self_contained [Item.single 0, Item.single 1]
      [Item.fused [0, 1]] =
      some [⟨[Item.single 0, Item.single 1], [Item.fused [0, 1]]⟩] := by
    have hm : matchLoop (Item.single 0).ops.toFinset ∅ [Item.single 1]
        [Item.fused [0, 1]] [Item.single 0] [] =
        some ([Item.single 0, Item.single 1], [Item.fused [0, 1]], [], []) := by
      rw [matchLoop_step (by decide)
        (show drain (Item.single 0).ops.toFinset ∅ [Item.fused [0, 1]] [] =
          some ({1}, [], [Item.fused [0, 1]]) by decide)
        (show drain {1} ∅ [Item.single 1] [Item.single 0] =
          some (∅, [], [Item.single 0, Item.single 1]) by decide)]
      exact matchLoop_exit ⟨rfl, rfl⟩
    rw [split_cons hm, split_nil]
    rfl
  exact ⟨hconc, by decide, by decide,
    split_into_self_contained_spec hconc (by decide) (by decide)⟩

theorem procStep_char {A Bs : Finset ℕ} {op : ℕ} (hop : op ∉ Bs) :
    procStep (A \ Bs, Bs \ A) op = (A \ (Bs ∪ {op}), (Bs ∪ {op}) \ A) := by
  unfold procStep
  by_cases hA : op ∈ A
  · rw [if_pos (by simp [Finset.mem_sdiff, hA, hop])]
    refine Prod.ext ?_ ?_ <;>
    · ext a
      by_cases ha : a = op <;>
        simp only [Finset.mem_erase, Finset.mem_sdiff, Finset.mem_union,
          Finset.mem_singleton, ha] <;> tauto
  · rw [if_neg (by simp [Finset.mem_sdiff, hA])]
    refine Prod.ext ?_ ?_ <;>
    · ext a
      by_cases ha : a = op <;>
        simp only [Finset.mem_insert, Finset.mem_sdiff, Finset.mem_union,
          Finset.mem_singleton, ha] <;> tauto

theorem procOps_char (A : Finset ℕ) : ∀ (ops : List ℕ) (Bs : Finset ℕ),
    ops.Nodup → (∀ o ∈ ops, o ∉ Bs) →
    procOps (A \ Bs) (Bs \ A) ops =
      (A \ (Bs ∪ ops.toFinset), (Bs ∪ ops.toFinset) \ A) := by
  intro ops
  induction ops with
  | nil =>
    intro Bs hnd hdisj
    simp [procOps]
  | cons op ops ih =>
    intro Bs hnd hdisj
    have hstep := procStep_char (A := A) (hdisj op (by simp))
    have hunfold : procOps (A \ Bs) (Bs \ A) (op :: ops) =
        procOps (A \ (Bs ∪ {op})) ((Bs ∪ {op}) \ A) ops := by
      simp only [procOps, List.foldl_cons]
      rw [show procStep (A \ Bs, Bs \ A) op = (A \ (Bs ∪ {op}), (Bs ∪ {op}) \ A)
        from hstep]
    rw [hunfold]
    rw [ih (Bs ∪ {op}) (List.Nodup.of_cons hnd) ?_]
    · refine Prod.ext ?_ ?_ <;>
      · simp only []
        congr 1
        ext a
        simp only [Finset.mem_union, Finset.mem_singleton, List.toFinset_cons,
          List.mem_toFinset, Finset.mem_insert]
        tauto
    · intro o ho
      simp only [Finset.mem_union, Finset.mem_singleton]
      rintro (hB | rfl)
      · exact hdisj o (by simp [ho]) hB
      · exact (List.nodup_cons.mp hnd).1 ho

theorem elems_cons (b : Item) (rest : List Item) :
    elems (b :: rest) = b.ops ++ elems rest := by
  simp [elems]

theorem drain_char (A : Finset ℕ) : ∀ (queue used : List Item),
    (elems (used ++ queue)).Nodup →
    A ⊆ elemsSet (used ++ queue) →
    ∃ q' u', drain (A \ elemsSet used) (elemsSet used \ A) queue used =
      some (elemsSet u' \ A, q', u') ∧ A ⊆ elemsSet u' := by
  intro queue
  induction queue with
  | nil =>
    intro used hnd hsub
    have hsub2 : A ⊆ elemsSet used := by simpa using hsub
    have hempty : A \ elemsSet used = ∅ :=
      Finset.sdiff_eq_empty_iff_subset.mpr hsub2
    exact ⟨[], used, by rw [hempty, drain_ifEmpty], hsub2⟩
  | cons b rest ih =>
    intro used hnd hsub
    by_cases hempty : A \ elemsSet used = ∅
    · exact ⟨b :: rest, used, by rw [hempty, drain_ifEmpty],
        Finset.sdiff_eq_empty_iff_subset.mp hempty⟩
    · have hnd2 : (elems ((used ++ [b]) ++ rest)).Nodup := by
        rw [List.append_assoc]
        simpa using hnd
      have hsub2 : A ⊆ elemsSet ((used ++ [b]) ++ rest) := by
        rw [List.append_assoc]
        simpa using hsub
      have hbops : b.ops.Nodup ∧ ∀ o ∈ b.ops, o ∉ elemsSet used := by
        rw [elems_append, elems_cons] at hnd
        rw [← List.append_assoc] at hnd
        have h1 := (List.nodup_append.mp hnd).1
        have h2 := List.nodup_append.mp h1
        refine ⟨h2.2.1, fun o ho hmem => ?_⟩
        have : o ∈ elems used := by
          simpa [elemsSet] using hmem
        exact h2.2.2 this ho
      have hset : elemsSet (used ++ [b]) = elemsSet used ∪ b.ops.toFinset := by
        rw [elemsSet_append, elemsSet_single]
      obtain ⟨q', u', hdrain, hsubu⟩ := ih (used ++ [b]) hnd2 hsub2
      refine ⟨q', u', ?_, hsubu⟩
      rw [drain.eq_def, if_neg hempty]
      show (let p := procOps (A \ elemsSet used) (elemsSet used \ A) b.ops
        drain p.1 p.2 rest (used ++ [b])) =
        some (elemsSet u' \ A, q', u')
      rw [show procOps (A \ elemsSet used) (elemsSet used \ A) b.ops =
        (A \ (elemsSet used ∪ b.ops.toFinset),
          (elemsSet used ∪ b.ops.toFinset) \ A)
        from procOps_char A b.ops (elemsSet used) hbops.1 hbops.2]
      rw [← hset]
      exact hdrain

theorem matchLoop_total : ∀ {ufwd ubwd : Finset ℕ} {fwds bwds usedF usedB : List Item},
    ufwd = elemsSet usedF \ elemsSet usedB →
    ubwd = elemsSet usedB \ elemsSet usedF →
    (elems (usedF ++ fwds)).Nodup →
    (elems (usedB ++ bwds)).Nodup →
    elemsSet (usedF ++ fwds) = elemsSet (usedB ++ bwds) →
    (matchLoop ufwd ubwd fwds bwds usedF usedB).isSome := by
  intro ufwd ubwd fwds bwds usedF usedB
  induction ufwd, ubwd, fwds, bwds, usedF, usedB using matchLoop.induct with
  | case1 ufwd ubwd fwds bwds usedF usedB h =>
    intro hgf hgb hndf hndb hset
    rw [matchLoop_exit h]
    rfl
  | case2 ufwd ubwd fwds bwds usedF usedB h h1 =>
    intro hgf hgb hndf hndb hset
    exfalso
    have hsubA : elemsSet usedF ⊆ elemsSet (usedB ++ bwds) := by
      rw [← hset, elemsSet_append]
      exact Finset.subset_union_left
    obtain ⟨q', u', hdrain, -⟩ := drain_char (elemsSet usedF) bwds usedB hndb hsubA
    rw [← hgf, ← hgb] at hdrain
    rw [h1] at hdrain
    exact absurd hdrain (by simp)
  | case3 ufwd ubwd fwds bwds usedF usedB h ubwd1 bwds1 usedB1 h1 h2 =>
    intro hgf hgb hndf hndb hset
    exfalso
    have hsubA : elemsSet usedF ⊆ elemsSet (usedB ++ bwds) := by
      rw [← hset, elemsSet_append]
      exact Finset.subset_union_left
    obtain ⟨q', u', hdrain, hsubu⟩ := drain_char (elemsSet usedF) bwds usedB hndb hsubA
    rw [← hgf, ← hgb] at hdrain
    rw [h1] at hdrain
    simp only [Option.some.injEq, Prod.mk.injEq] at hdrain
    obtain ⟨hub1, -, rfl⟩ := hdrain
    have hsubA2 : elemsSet usedB1 ⊆ elemsSet (usedF ++ fwds) := by
      obtain ⟨t1, ht1, ht2⟩ := drain_sub h1
      rw [hset, ht2, ht1]
      rw [elemsSet_append, elemsSet_append, elemsSet_append]
      exact Finset.union_subset_union_right Finset.subset_union_left
    obtain ⟨q2, u2, hdrain2, -⟩ :=
      drain_char (elemsSet usedB1) fwds usedF hndf hsubA2
    have hz : elemsSet usedF \ elemsSet usedB1 = ∅ :=
      Finset.sdiff_eq_empty_iff_subset.mpr hsubu
    rw [hz] at hdrain2
    rw [← hub1] at hdrain2
    rw [h2] at hdrain2
    exact absurd hdrain2 (by simp)
  | case4 ufwd ubwd fwds bwds usedF usedB h ubwd1 bwds1 usedB1 h1 ufwd2 fwds1 usedF1 h2 =>
    rename_i ih
    intro hgf hgb hndf hndb hset
    have hsubA : elemsSet usedF ⊆ elemsSet (usedB ++ bwds) := by
      rw [← hset, elemsSet_append]
      exact Finset.subset_union_left
    obtain ⟨q', u', hdrain, hsubu⟩ := drain_char (elemsSet usedF) bwds usedB hndb hsubA
    rw [← hgf, ← hgb] at hdrain
    rw [h1] at hdrain
    simp only [Option.some.injEq, Prod.mk.injEq] at hdrain
    obtain ⟨hub1, rfl, rfl⟩ := hdrain
    have hsubA2 : elemsSet usedB1 ⊆ elemsSet (usedF ++ fwds) := by
      obtain ⟨t1, ht1, ht2⟩ := drain_sub h1
      rw [hset, ht2, ht1]
      rw [elemsSet_append, elemsSet_append, elemsSet_append]
      exact Finset.union_subset_union_right Finset.subset_union_left
    obtain ⟨q2, u2, hdrain2, hsubu2⟩ :=
      drain_char (elemsSet usedB1) fwds usedF hndf hsubA2
    have hz : elemsSet usedF \ elemsSet usedB1 = ∅ :=
      Finset.sdiff_eq_empty_iff_subset.mpr hsubu
    rw [hz] at hdrain2
    rw [← hub1] at hdrain2
    rw [h2] at hdrain2
    simp only [Option.some.injEq, Prod.mk.injEq] at hdrain2
    obtain ⟨huf2, rfl, rfl⟩ := hdrain2
    obtain ⟨t2, ht21, ht22⟩ := drain_sub h2
    obtain ⟨t1, ht11, ht12⟩ := drain_sub h1
    rw [matchLoop_step h h1 h2]
    refine ih huf2 ?_ ?_ ?_ ?_
    · rw [Finset.sdiff_eq_empty_iff_subset.mpr hsubu2]
    · rw [ht22] at hndf
      rw [ht21]
      simpa [List.append_assoc] using hndf
    · rw [ht12] at hndb
      rw [ht11]
      simpa [List.append_assoc] using hndb
    · rw [ht22, ht12] at hset
      rw [ht21, ht11]
      simpa [List.append_assoc] using hset

theorem toFinset_right_of_nodup {a b : List ℕ} (h : (a ++ b).Nodup) :
    b.toFinset = (a ++ b).toFinset \ a.toFinset := by
  have hd := (List.nodup_append.mp h).2.2
  ext o
  simp only [List.mem_toFinset, Finset.mem_sdiff, List.mem_append]
  constructor
  · intro hb
    exact ⟨Or.inr hb, fun ha => hd ha hb⟩
  · rintro ⟨ha | hb, hna⟩
    · exact absurd ha hna
    · exact hb

theorem split_total : ∀ {fwds bwds : List Item},
    (elems fwds).Nodup → (elems bwds).Nodup →
    elemsSet fwds = elemsSet bwds →
    (∀ it ∈ fwds, it.ops ≠ []) → (∀ it ∈ bwds, it.ops ≠ []) →
    (split_into_self_contained fwds bwds).isSome := by
  intro fwds bwds
  induction fwds, bwds using split_into_self_contained.induct with
  | case1 bwds hb =>
    intro hf hbn hset hne1 hne2
    rw [split_nil, if_pos hb]
    rfl
  | case2 bwds hb =>
    intro hf hbn hset hne1 hne2
    exfalso
    match bwds, hb, hbn, hset, hne2 with
    | b :: rest, hb, hbn, hset, hne2 =>
      have hbne := hne2 b (by simp)
      match hops : b.ops with
      | [] => exact hbne hops
      | o :: os =>
        have ho : o ∈ elemsSet (b :: rest) := by
          simp [elemsSet, elems_cons, hops]
        rw [← hset] at ho
        simp [elemsSet, elems] at ho
  | case3 bwds b rest h1 =>
    intro hf hbn hset hne1 hne2
    exfalso
    have htot := @matchLoop_total b.ops.toFinset ∅ rest bwds [b] []
      (by rw [elemsSet_single, elemsSet_nil, Finset.sdiff_empty])
      (by rw [elemsSet_nil, elemsSet_single, Finset.empty_sdiff])
      (by simpa using hf)
      (by simpa using hbn)
      (by simpa using hset)
    rw [h1] at htot
    simp at htot
  | case4 bwds b rest usedF usedB fwds1 bwds1 h1 h2 =>
    rename_i ih
    intro hf hbn hset hne1 hne2
    exfalso
    obtain ⟨⟨tf, htf1, htf2⟩, ⟨tb, htb1, htb2⟩⟩ := matchLoop_sub h1
    have heF : elems usedF ++ elems fwds1 = elems (b :: rest) := by
      rw [htf1, htf2, ← elems_append]
      simp
    have heB : elems usedB ++ elems bwds1 = elems bwds := by
      rw [htb1, htb2, ← elems_append]
      simp
    have hndF : (elems usedF ++ elems fwds1).Nodup := by rw [heF]; exact hf
    have hndB : (elems usedB ++ elems bwds1).Nodup := by rw [heB]; exact hbn
    have e1 : elemsSet fwds1 = elemsSet (b :: rest) \ elemsSet usedF := by
      simp only [elemsSet]
      rw [toFinset_right_of_nodup hndF, heF]
    have e2 : elemsSet bwds1 = elemsSet bwds \ elemsSet usedB := by
      simp only [elemsSet]
      rw [toFinset_right_of_nodup hndB, heB]
    have hJ : elemsSet [b] ∪ (∅ : Finset ℕ) =
        elemsSet ([] : List Item) ∪ b.ops.toFinset := by
      rw [elemsSet_single, elemsSet_nil]
      simp
    have hEq : elemsSet usedF = elemsSet usedB := matchLoop_inv h1 hJ
    have hrec := ih
      (by exact (List.nodup_append.mp hndF).2.1)
      (by exact (List.nodup_append.mp hndB).2.1)
      (by rw [e1, e2, hset, hEq])
      (fun it hit => hne1 it (by
        rw [htf2]
        exact List.mem_cons_of_mem b (List.mem_append.mpr (Or.inr hit))))
      (fun it hit => hne2 it (by
        rw [htb2]
        exact List.mem_append.mpr (Or.inr hit)))
    rw [h2] at hrec
    simp at hrec
  | case5 bwds b rest usedF usedB fwds1 bwds1 h1 units1 h2 =>
    intro hf hbn hset hne1 hne2
    rw [split_cons h1, h2]
    rfl

theorem matchLoop_fail2 {ufwd ubwd : Finset ℕ} {fwds bwds usedF usedB : List Item}
    {ubwd1 : Finset ℕ} {bwds1 usedB1 : List Item}
    (h : ¬(ufwd = ∅ ∧ ubwd = ∅))
    (h1 : drain ufwd ubwd bwds usedB = some (ubwd1, bwds1, usedB1))
    (h2 : drain ubwd1 ∅ fwds usedF = none) :
    matchLoop ufwd ubwd fwds bwds usedF usedB = none := by
  rw [matchLoop.eq_def, dif_neg h]
  split
  · rfl
  · rename_i r1 hd1
    rw [h1] at hd1
    simp only [Option.some.injEq, Prod.mk.injEq] at hd1
    obtain ⟨rfl, rfl, rfl⟩ := hd1
    split
    · rfl
    · rename_i r2 hd2
      rw [h2] at hd2
      exact absurd hd2 (by simp)

theorem split_cons_fail {fwd : Item} {rest bwds : List Item}
    (h : matchLoop fwd.ops.toFinset ∅ rest bwds [fwd] [] = none) :
    split_into_self_contained (fwd :: rest) bwds = none := by
  rw [split_into_self_contained.eq_def]
  split
  · rename_i heq
    exact absurd heq (by simp)
  · rename_i b2 rest2 heq
    injection heq with hb hr
    subst hb
    subst hr
    split
    · rfl
    · rename_i r hd
      rw [h] at hd
      exact absurd hd (by simp)

/-- **C10 (amended).** `split_into_self_contained` is total — every `pop(0)`
succeeds — whenever the forward and backward lists decompose to the same
duplicate-free set of elementary operations and no input item decomposes to
an empty member list.  (The set-level precondition alone is not enough: see
the counterexample theorem.) -/
theorem split_into_self_contained_total {fwds bwds : List Item}
    (hf : (elems fwds).Nodup) (hb : (elems bwds).Nodup)
    (hset : elemsSet fwds = elemsSet bwds)
    (hne1 : ∀ it ∈ fwds, it.ops ≠ []) (hne2 : ∀ it ∈ bwds, it.ops ≠ []) :
    (split_into_self_contained fwds bwds).isSome :=
  split_total hf hb hset hne1 hne2

/-- **C10, counterexample to the claim as stated.**  Equality of the
decomposed elementary-operation sets alone does not make
`split_into_self_contained` total: an item with an empty decomposition, or a
duplicated member, still drives a `pop(0)` into an exhausted queue. -/
theorem split_into_self_contained_total_cex :
    (elemsSet ([] : List Item) = elemsSet [Item.fused []] ∧
      split_into_self_contained [] [Item.fused []] = none) ∧
    (elemsSet [Item.single 1] = elemsSet [Item.fused [1, 1]] ∧
      split_into_self_contained [Item.single 1] [Item.fused [1, 1]] = none) := by
  refine ⟨⟨by decide, ?_⟩, ⟨by decide, ?_⟩⟩
  · rw [split_nil]
    rfl
  · refine split_cons_fail ?_
    exact matchLoop_fail2 (by decide)
      (show drain (Item.single 1).ops.toFinset ∅ [Item.fused [1, 1]] [] =
        some ({1}, [], [Item.fused [1, 1]]) by decide)
      (show drain {1} ∅ [] [Item.single 1] = none by decide)

theorem split_into_self_contained_total_witness :
    ((elems [Item.single 0, Item.single 1]).Nodup ∧
      (elems [Item.fused [0, 1]]).Nodup ∧
      elemsSet [Item.single 0, Item.single 1] = elemsSet [Item.fused [0, 1]] ∧
      (∀ it ∈ [Item.single 0, Item.single 1], it.ops ≠ []) ∧
      (∀ it ∈ [Item.fused [0, 1]], it.ops ≠ [])) ∧
    (split_into_self_contained [Item.single 0, Item.single 1]
      [Item.fused [0, 1]]).isSome :=
  ⟨⟨by decide, by decide, by decide, by decide, by decide⟩,
    split_into_self_contained_total (by decide) (by decide) (by decide)
      (by decide) (by decide)⟩

/-- A saved-for-backward context: a mapping from string keys (modelled as
lists of character codes) to tensors. -/
def Ctx (τ : Type) : Type := List ℕ → Option τ

/-- The empty `Context()`. -/
def emptyCtx (τ : Type) : Ctx τ := fun _ => none

/-- An operation as consumed by `SelfContainedOp.backward`: whether it is a
`FusedOp`, its `name` attribute, and its `backward(ctx, dy)` method returning
the data gradient and the parameter gradients (`Grads`). -/
structure BOp (τ γ : Type) where
  isFusedOp : Bool
  name : List ℕ
  back : Ctx τ → τ → τ × List γ

/-- `name[len(op_name):]` stripping for the keys of a merged context:
the sub-context of `m` under the namespace `p`
(`{name[len(op_name):]: tensor for name, tensor in ctx.items()
   if name.startswith(op_name)}`). -/
def extractCtx {τ : Type} (p : List ℕ) (m : Ctx τ) : Ctx τ := fun k => m (p ++ k)

/-- The per-op context selection in `SelfContainedOp.backward`: a `FusedOp`
receives the whole unit context, a plain op receives its namespaced slice. -/
def ctxFor {τ γ : Type} (op : BOp τ γ) (ctx : Ctx τ) : Ctx τ :=
  if op.isFusedOp then ctx else extractCtx op.name ctx

/-- `SelfContainedOp.backward`: build the per-op context list, then consume
`list(zip(self.bwds, ctxs))[::-1]` threading the gradient and concatenating
parameter gradients. -/
def scBackward {τ γ : Type} (bwds : List (BOp τ γ)) (ctx : Ctx τ) (dy : τ) :
    τ × List γ :=
  let ctxs := bwds.map (fun op => ctxFor op ctx)
  ((bwds.zip ctxs).reverse).foldl
    (fun acc p =>
      let r := p.1.back p.2 acc.1
      (r.1, acc.2 ++ r.2)) (dy, [])

theorem foldl_grads_fst {τ γ : Type} :
    ∀ (l : List (BOp τ γ × Ctx τ)) (d : τ) (g : List γ),
    (l.foldl (fun acc p =>
      let r := p.1.back p.2 acc.1
      (r.1, acc.2 ++ r.2)) (d, g)).1 =
    l.foldl (fun d p => (p.1.back p.2 d).1) d := by
  intro l
  induction l with
  | nil => intro d g; rfl
  | cons p rest ih => intro d g; exact ih _ _

/-- **C8.** Units are emitted in forward traversal order (concatenating the
units' `fwds` lists reproduces the forward input), and
`SelfContainedOp.backward` threads the gradient through the unit's backward
items in the reverse of their collection order: its data-gradient result is
the left fold of the per-op backward steps over `bwds.reverse`, each op
receiving its context slice. -/
theorem sc_units_order_and_backward_reversal :
    (∀ {fwds bwds : List Item} {units : List SCOp},
      split_into_self_contained fwds bwds = some units →
      (units.map SCOp.fwds).flatten = fwds) ∧
    (∀ (τ γ : Type) (bwds : List (BOp τ γ)) (ctx : Ctx τ) (dy : τ),
      (scBackward bwds ctx dy).1 =
        bwds.reverse.foldl (fun d op => (op.back (ctxFor op ctx) d).1) dy) := by
  constructor
  · intro fwds bwds units h
    exact (split_concat h).1
  · intro τ γ bwds ctx dy
    unfold scBackward
    rw [foldl_grads_fst]
    have hzip : bwds.zip (bwds.map (fun op => ctxFor op ctx)) =
        bwds.map (fun op => (op, ctxFor op ctx)) := by
      induction bwds with
      | nil => rfl
      | cons op rest ih => simp [ih]
    rw [hzip, ← List.map_reverse, List.foldl_map]

theorem sc_units_order_and_backward_reversal_witness :
    (split_into_self_contained [Item.single 3] [Item.single 3] =
        some [⟨[Item.single 3], [Item.single 3]⟩] ∧
      ([SCOp.mk [Item.single 3] [Item.single 3]].map SCOp.fwds).flatten =
        [Item.single 3]) ∧
    (@scBackward ℤ ℤ
        [⟨false, [49], fun _ d => (d + 1, [])⟩,
          ⟨false, [50], fun _ d => (d * 2, [])⟩]
        (emptyCtx ℤ) (3 : ℤ)).1 = 7 := by
  have hconc : split_into_self_contained [Item.single 3] [Item.single 3] =
      some [⟨[Item.single 3], [Item.single 3]⟩] := by
    have hm : matchLoop (Item.single 3).ops.toFinset ∅ [] [Item.single 3]
        [Item.single 3] [] = some ([Item.single 3], [Item.single 3], [], []) := by
      rw [matchLoop_step (by decide)
        (show drain (Item.single 3).ops.toFinset ∅ [Item.single 3] [] =
          some (∅, [], [Item.single 3]) by decide)
        (show drain ∅ ∅ [] [Item.single 3] =
          some (∅, [], [Item.single 3]) by decide)]
      exact matchLoop_exit ⟨rfl, rfl⟩
    rw [split_cons hm, split_nil]
    rfl
  refine ⟨⟨hconc, sc_units_order_and_backward_reversal.1 hconc⟩, ?_⟩
  rw [sc_units_order_and_backward_reversal.2]
  rfl

/-- The torch dtypes involved in the squish machinery. -/
inductive TDtype where
  | int8
  | float16
  | bfloat16
  | float32
  | float64
  deriving DecidableEq, Repr

/-- Element size in bytes of each dtype. -/
def TDtype.size : TDtype → ℕ
  | .int8 => 1
  | .float16 => 2
  | .bfloat16 => 2
  | .float32 => 4
  | .float64 => 8

/-- `SQUISH_TABLE = {torch.int8: torch.float16, torch.bfloat16: torch.float32,
torch.float32: torch.float64}`. -/
def SQUISH_TABLE : TDtype → Option TDtype
  | .int8 => some .float16
  | .bfloat16 => some .float32
  | .float32 => some .float64
  | _ => none

/-- `UNSQUISH_TABLE = {v: k for k, v in SQUISH_TABLE.items()}`. -/
def UNSQUISH_TABLE : TDtype → Option TDtype
  | .float16 => some .int8
  | .float32 => some .bfloat16
  | .float64 => some .float32
  | _ => none

/-- A torch tensor as the squish code observes it: a declared element dtype
over raw storage bytes. -/
structure TorchTensor where
  dtype : TDtype
  bytes : List ℕ
  deriving DecidableEq, Repr

/-- `t.numel()`: number of elements of the declared dtype. -/
def TorchTensor.numel (t : TorchTensor) : ℕ := t.bytes.length / t.dtype.size

/-- `torch.Tensor.view(dtype)`: reinterpret the same bytes under a new
element type; fails when the byte count does not divide into whole new
elements (the external torch contract). -/
def tview (dt : TDtype) (t : TorchTensor) : Option TorchTensor :=
  if dt.size ∣ t.bytes.length then some ⟨dt, t.bytes⟩ else none

/-- `_squish(t)`: `t.data = t.data.view(SQUISH_TABLE[t.data.dtype])` when the
dtype is in the table, else `raise RuntimeError(...)`. -/
def squishT (t : TorchTensor) : Except String TorchTensor :=
  match SQUISH_TABLE t.dtype with
  | some dt =>
    match tview dt t with
    | some s => .ok s
    | none => .error "view: size not divisible"
  | none => .error "Invalid dtype of gradient for FP8 tensor."

/-- `_unsquish(t)`: `assert t.data.dtype in UNSQUISH_TABLE` then view back. -/
def unsquishT (t : TorchTensor) : Except String TorchTensor :=
  match UNSQUISH_TABLE t.dtype with
  | some dt =>
    match tview dt t with
    | some s => .ok s
    | none => .error "view: size not divisible"
  | none => .error "AssertionError"

theorem roundtrip_aux {dt1 dt2 : TDtype} {bytes : List ℕ} {s : TorchTensor}
    (hS : SQUISH_TABLE dt1 = some dt2) (hU : UNSQUISH_TABLE dt2 = some dt1)
    (hwf : dt1.size ∣ bytes.length)
    (h : squishT ⟨dt1, bytes⟩ = .ok s) :
    unsquishT s = .ok ⟨dt1, bytes⟩ ∧ s.bytes = bytes ∧
    s.numel * s.dtype.size =
      (TorchTensor.mk dt1 bytes).numel * dt1.size := by
  simp only [squishT, hS, tview] at h
  by_cases hdvd : dt2.size ∣ bytes.length
  · rw [if_pos hdvd] at h
    simp only [Except.ok.injEq] at h
    subst h
    refine ⟨?_, rfl, ?_⟩
    · simp only [unsquishT, hU, tview]
      rw [if_pos hwf]
    · simp only [TorchTensor.numel]
      rw [Nat.div_mul_cancel hdvd, Nat.div_mul_cancel hwf]
  · rw [if_neg hdvd] at h
    exact absurd h (by simp)

/-- **C2.** For every well-formed tensor whose squish succeeds (its dtype is
in `SQUISH_TABLE` and its storage regroups into whole squished elements),
`_unsquish(_squish(t))` restores `t` byte-for-byte with its original dtype,
both operations keep the raw bytes unchanged, and total byte size is
preserved: `numel(squish(t)) * size(squished dtype) = numel(t) * size(t)`. -/
theorem squish_unsquish_roundtrip (t s : TorchTensor)
    (hwf : t.dtype.size ∣ t.bytes.length)
    (h : squishT t = .ok s) :
    unsquishT s = .ok t ∧ s.bytes = t.bytes ∧
    s.numel * s.dtype.size = t.numel * t.dtype.size := by
  obtain ⟨dt, bytes⟩ := t
  cases dt with
  | int8 => exact roundtrip_aux rfl rfl hwf h
  | bfloat16 => exact roundtrip_aux rfl rfl hwf h
  | float32 => exact roundtrip_aux rfl rfl hwf h
  | float16 => exact absurd h (by simp [squishT, SQUISH_TABLE])
  | float64 => exact absurd h (by simp [squishT, SQUISH_TABLE])

theorem squish_unsquish_roundtrip_witness :
    TDtype.size TDtype.int8 ∣ (TorchTensor.mk TDtype.int8 [7, 8]).bytes.length ∧
    squishT ⟨TDtype.int8, [7, 8]⟩ = .ok ⟨TDtype.float16, [7, 8]⟩ ∧
    (unsquishT ⟨TDtype.float16, [7, 8]⟩ = .ok ⟨TDtype.int8, [7, 8]⟩ ∧
      (TorchTensor.mk TDtype.float16 [7, 8]).bytes =
        (TorchTensor.mk TDtype.int8 [7, 8]).bytes ∧
      (TorchTensor.mk TDtype.float16 [7, 8]).numel *
          (TorchTensor.mk TDtype.float16 [7, 8]).dtype.size =
        (TorchTensor.mk TDtype.int8 [7, 8]).numel *
          (TorchTensor.mk TDtype.int8 [7, 8]).dtype.size) :=
  ⟨by decide, by rfl,
    squish_unsquish_roundtrip ⟨TDtype.int8, [7, 8]⟩ ⟨TDtype.float16, [7, 8]⟩
      (by decide) (by rfl)⟩

/-- Parallelism state of a tensor: replicated (`NA`), row-split (`NRS`),
column-split (`NCS`), partial-sum (`PA`) — the `PType` enum. -/
inductive PType where
  | NA
  | NRS
  | NCS
  | PA
  deriving DecidableEq, Repr

/-- `Parallelism = tuple[PType, PType]`. -/
def Parallelism : Type := PType × PType

instance : DecidableEq Parallelism := instDecidableEqProd

namespace ParallelismClass

def NORMAL : Parallelism := (PType.NA, PType.NA)
def ROWP : Parallelism := (PType.NRS, PType.NRS)
def COLP : Parallelism := (PType.NCS, PType.NCS)
def CGEMM : Parallelism := (PType.NA, PType.NCS)
def RGEMM : Parallelism := (PType.NCS, PType.PA)

end ParallelismClass

/-- The `Op.dist_group_size` property: `ValueError` when the operation is not
distributed (`__dist_group_size is None`), else the group size. -/
def distGroupSize (g : Option ℕ) : Except String ℕ :=
  match g with
  | none => .error "Operation is not distributed, but distributed group size is requested"
  | some k => .ok k

/-- The state of a `Gemm` op relevant to `_pre_describe_tensors`. -/
structure GemmOp where
  in_features : ℕ
  out_features : ℕ
  parallelism : Parallelism
  distGroup : Option ℕ
  input_shape : Option (List ℕ)
  deriving DecidableEq

/-- `Gemm._pre_describe_tensors`: assert the chosen parallelism, compute the
worker count, check feature divisibility (raising `ValueError` otherwise) and
shard the feature count. -/
def GemmOp.preDescribeTensors (g : GemmOp) : Except String GemmOp :=
  if g.parallelism = ParallelismClass.NORMAL ∨
      g.parallelism = ParallelismClass.RGEMM ∨
      g.parallelism = ParallelismClass.CGEMM then
    match (if g.parallelism = ParallelismClass.RGEMM ∨
        g.parallelism = ParallelismClass.CGEMM then
      distGroupSize g.distGroup else .ok 1) with
    | .error e => .error e
    | .ok workers =>
      if g.parallelism = ParallelismClass.RGEMM then
        if g.in_features % workers ≠ 0 then
          .error "Number of input features must be divisible by the distributed group size"
        else .ok {g with in_features := g.in_features / workers}
      else if g.parallelism = ParallelismClass.CGEMM then
        if g.out_features % workers ≠ 0 then
          .error "Number of output features must be divisible by the distributed group size"
        else .ok {g with out_features := g.out_features / workers}
      else .ok g
  else .error "AssertionError"

/-- `Op.set_input_shape` for `Gemm`: bind the shape, then immediately run
`_pre_describe_tensors` (no tensor is described or allocated on failure). -/
def GemmOp.setInputShape (g : GemmOp) (shape : List ℕ) : Except String GemmOp :=
  GemmOp.preDescribeTensors {g with input_shape := some shape}

/-- The state of a `Bias` op relevant to `_pre_describe_tensors`. -/
structure BiasOp where
  features : ℕ
  parallelism : Parallelism
  distGroup : Option ℕ
  input_shape : Option (List ℕ)
  deriving DecidableEq

/-- `Bias._pre_describe_tensors`: column-parallel biases shard their feature
count by the distributed group size, after a divisibility check. -/
def BiasOp.preDescribeTensors (b : BiasOp) : Except String BiasOp :=
  if b.parallelism = ParallelismClass.NORMAL ∨
      b.parallelism = ParallelismClass.ROWP ∨
      b.parallelism = ParallelismClass.COLP then
    match (if b.parallelism = ParallelismClass.COLP then
      distGroupSize b.distGroup else .ok 1) with
    | .error e => .error e
    | .ok workers =>
      if b.features % workers ≠ 0 then
        .error "Number of features must be divisible by the distributed group size"
      else .ok {b with features := b.features / workers}
  else .error "AssertionError"

/-- `Op.set_input_shape` for `Bias`. -/
def BiasOp.setInputShape (b : BiasOp) (shape : List ℕ) : Except String BiasOp :=
  BiasOp.preDescribeTensors {b with input_shape := some shape}

/-- **C5.** Under a distributed parallelism variant (row- or column-parallel
`Gemm`, column-parallel `Bias`) with group size `k`: if the relevant feature
count is not divisible by `k`, `set_input_shape` fails fast with the
descriptive `ValueError` (before any tensor is described); if it is
divisible, no error is raised and the feature count is divided by `k`. -/
theorem set_input_shape_divisibility (k : ℕ) (g : GemmOp) (b : BiasOp)
    (shape : List ℕ) (hk : 0 < k)
    (hg : g.distGroup = some k) (hb : b.distGroup = some k) :
    (g.parallelism = ParallelismClass.RGEMM → ¬(k ∣ g.in_features) →
      GemmOp.setInputShape g shape =
        .error "Number of input features must be divisible by the distributed group size") ∧
    (g.parallelism = ParallelismClass.RGEMM → k ∣ g.in_features →
      GemmOp.setInputShape g shape =
        .ok {g with
          input_shape := some shape
          in_features := g.in_features / k}) ∧
    (g.parallelism = ParallelismClass.CGEMM → ¬(k ∣ g.out_features) →
      GemmOp.setInputShape g shape =
        .error "Number of output features must be divisible by the distributed group size") ∧
    (g.parallelism = ParallelismClass.CGEMM → k ∣ g.out_features →
      GemmOp.setInputShape g shape =
        .ok {g with
          input_shape := some shape
          out_features := g.out_features / k}) ∧
    (b.parallelism = ParallelismClass.COLP → ¬(k ∣ b.features) →
      BiasOp.setInputShape b shape =
        .error "Number of features must be divisible by the distributed group size") ∧
    (b.parallelism = ParallelismClass.COLP → k ∣ b.features →
      BiasOp.setInputShape b shape =
        .ok {b with
          input_shape := some shape
          features := b.features / k}) := by
  have key : ∀ (X : ℕ), k ∣ X → X % k = 0 := fun X hX => by
    obtain ⟨c, rfl⟩ := hX
    exact Nat.mul_mod_right k c
  refine ⟨?_, ?_, ?_, ?_, ?_, ?_⟩
  · intro hp hdvd
    have hmod : g.in_features % k ≠ 0 := fun hm =>
      hdvd (Nat.dvd_of_mod_eq_zero hm)
    simp +decide [GemmOp.setInputShape, GemmOp.preDescribeTensors, hp, hg,
      distGroupSize, hmod, ParallelismClass.NORMAL, ParallelismClass.RGEMM,
      ParallelismClass.CGEMM, Prod.mk.injEq]
  · intro hp hdvd
    have hmod := key _ hdvd
    simp +decide [GemmOp.setInputShape, GemmOp.preDescribeTensors, hp, hg,
      distGroupSize, hmod, ParallelismClass.NORMAL, ParallelismClass.RGEMM,
      ParallelismClass.CGEMM, Prod.mk.injEq]
  · intro hp hdvd
    have hmod : g.out_features % k ≠ 0 := fun hm =>
      hdvd (Nat.dvd_of_mod_eq_zero hm)
    simp +decide [GemmOp.setInputShape, GemmOp.preDescribeTensors, hp, hg,
      distGroupSize, hmod, ParallelismClass.NORMAL, ParallelismClass.RGEMM,
      ParallelismClass.CGEMM, Prod.mk.injEq]
  · intro hp hdvd
    have hmod := key _ hdvd
    simp +decide [GemmOp.setInputShape, GemmOp.preDescribeTensors, hp, hg,
      distGroupSize, hmod, ParallelismClass.NORMAL, ParallelismClass.RGEMM,
      ParallelismClass.CGEMM, Prod.mk.injEq]
  · intro hp hdvd
    have hmod : b.features % k ≠ 0 := fun hm =>
      hdvd (Nat.dvd_of_mod_eq_zero hm)
    simp +decide [BiasOp.setInputShape, BiasOp.preDescribeTensors, hp, hb,
      distGroupSize, hmod, ParallelismClass.NORMAL, ParallelismClass.ROWP,
      ParallelismClass.COLP, Prod.mk.injEq]
  · intro hp hdvd
    have hmod := key _ hdvd
    simp +decide [BiasOp.setInputShape, BiasOp.preDescribeTensors, hp, hb,
      distGroupSize, hmod, ParallelismClass.NORMAL, ParallelismClass.ROWP,
      ParallelismClass.COLP, Prod.mk.injEq]

theorem set_input_shape_divisibility_witness :
    (0 < 2 ∧
      (GemmOp.mk 4 6 ParallelismClass.RGEMM (some 2) none).distGroup = some 2 ∧
      (BiasOp.mk 5 ParallelismClass.COLP (some 2) none).distGroup = some 2) ∧
    GemmOp.setInputShape ⟨4, 6, ParallelismClass.RGEMM, some 2, none⟩ [3, 4] =
      .ok ⟨2, 6, ParallelismClass.RGEMM, some 2, some [3, 4]⟩ ∧
    BiasOp.setInputShape ⟨5, ParallelismClass.COLP, some 2, none⟩ [3, 4] =
      .error "Number of features must be divisible by the distributed group size" := by
  refine ⟨⟨by decide, rfl, rfl⟩, ?_, ?_⟩
  · exact (set_input_shape_divisibility 2
      ⟨4, 6, ParallelismClass.RGEMM, some 2, none⟩
      ⟨5, ParallelismClass.COLP, some 2, none⟩ [3, 4]
      (by decide) rfl rfl).2.1 rfl (by decide)
  · exact (set_input_shape_divisibility 2
      ⟨4, 6, ParallelismClass.RGEMM, some 2, none⟩
      ⟨5, ParallelismClass.COLP, some 2, none⟩ [3, 4]
      (by decide) rfl rfl).2.2.2.2.1 rfl (by decide)

/-- NVTE dtypes as used by the sequential pipeline. -/
inductive NVTEDType where
  | Byte
  | Int32
  | FP8E4M3
  | FP8E5M2
  | BFloat16
  | Float16
  | Float32
  deriving DecidableEq, Repr

/-- `nvte.is_fp8`: true for the two 8-bit floating dtypes. -/
def NVTEDType.isFP8 : NVTEDType → Bool
  | .FP8E4M3 => true
  | .FP8E5M2 => true
  | _ => false

/-- An NVTE tensor: its NVTE dtype and its raw torch storage. -/
structure NvteTensor where
  dtype : NVTEDType
  data : TorchTensor
  deriving DecidableEq

/-- `nvte.is_fp8(t)` on a tensor. -/
def nvteIsFP8 (t : NvteTensor) : Bool := t.dtype.isFP8

/-- Shared tail of the backward after the relay decision: the parameter
gradient assert, the outgoing squish, and the positional torch gradients. -/
def finishBackward (dataGrad : NvteTensor) (paramGrads : List NvteTensor)
    (relay : Option NvteTensor) (squishOutgoing : Bool) :
    Except String (List TorchTensor × Option NvteTensor) :=
  if paramGrads.any nvteIsFP8 then
    .error "assert all(not nvte.is_fp8(g) for g in param_grads)"
  else
    match (if squishOutgoing then squishT dataGrad.data
      else .ok dataGrad.data) with
    | .error e => .error e
    | .ok exposed => .ok (exposed :: paramGrads.map NvteTensor.data, relay)

/-- The tail of `ComputePipelineFunction.backward` (from the `op.backward`
call on): run the op backward on the resolved gradient, then
assert `not nvte.is_fp8(data_grad)` when there is no upcoming backward (this
is the last backward of the pipeline) or store the data gradient in the relay
slot otherwise, assert `all(not nvte.is_fp8(g) for g in param_grads)`, squish
the outgoing exposed gradient when the torch boundary expects it, and return
the exposed torch gradients plus the relay value.  A failed assert aborts the
call (`Except.error`). -/
def pipelineBackwardTail (opBwd : NvteTensor → NvteTensor × List NvteTensor)
    (nvteGrad : NvteTensor) (upcoming : Option Unit) (squishOutgoing : Bool) :
    Except String (List TorchTensor × Option NvteTensor) :=
  let r := opBwd nvteGrad
  match upcoming with
  | none =>
    if nvteIsFP8 r.1 then .error "assert not nvte.is_fp8(data_grad)"
    else finishBackward r.1 r.2 none squishOutgoing
  | some _ => finishBackward r.1 r.2 (some r.1) squishOutgoing

/-- **C6.** In the backward of the last `SelfContainedOp` of a training call
(the unit with no upcoming backward), a low-precision (FP8) data gradient is
fatal; in every unit's backward, any FP8 parameter gradient is fatal; and a
successful return guarantees the data gradient (at the last unit) and all
parameter gradients are not FP8. -/
theorem backward_fp8_asserts
    (opBwd : NvteTensor → NvteTensor × List NvteTensor)
    (g : NvteTensor) (sq : Bool) :
    (nvteIsFP8 (opBwd g).1 = true →
      pipelineBackwardTail opBwd g none sq =
        .error "assert not nvte.is_fp8(data_grad)") ∧
    (∀ up, (opBwd g).2.any nvteIsFP8 = true →
      pipelineBackwardTail opBwd g (some up) sq =
        .error "assert all(not nvte.is_fp8(g) for g in param_grads)") ∧
    (∀ up res, pipelineBackwardTail opBwd g up sq = .ok res →
      (up = none → nvteIsFP8 (opBwd g).1 = false) ∧
      ∀ p ∈ (opBwd g).2, nvteIsFP8 p = false) := by
  refine ⟨?_, ?_, ?_⟩
  · intro hfp8
    simp [pipelineBackwardTail, hfp8]
  · intro up hany
    simp [pipelineBackwardTail, finishBackward, hany]
  · intro up res hok
    unfold pipelineBackwardTail at hok
    refine ⟨?_, ?_⟩
    · intro hup
      subst hup
      by_cases hfp8 : nvteIsFP8 (opBwd g).1
      · simp [hfp8] at hok
      · exact Bool.eq_false_iff.mpr (by simpa using hfp8)
    · intro p hp
      by_cases hany : (opBwd g).2.any nvteIsFP8
      · exfalso
        rcases up with - | u
        · by_cases hfp8 : nvteIsFP8 (opBwd g).1
          · simp [hfp8] at hok
          · simp [hfp8, finishBackward, hany] at hok
        · simp [finishBackward, hany] at hok
      · have := List.any_eq_false.mp (Bool.eq_false_iff.mpr (by simpa using hany))
        exact Bool.eq_false_iff.mpr (by simpa using this p hp)

theorem backward_fp8_asserts_witness :
    nvteIsFP8 ((fun t => (t, ([] : List NvteTensor)))
      (NvteTensor.mk NVTEDType.FP8E4M3 ⟨TDtype.int8, [0]⟩)).1 = true ∧
    pipelineBackwardTail (fun t => (t, []))
      ⟨NVTEDType.FP8E4M3, ⟨TDtype.int8, [0]⟩⟩ none false =
      .error "assert not nvte.is_fp8(data_grad)" :=
  ⟨by decide,
    (backward_fp8_asserts (fun t => (t, []))
      ⟨NVTEDType.FP8E4M3, ⟨TDtype.int8, [0]⟩⟩ false).1 (by decide)⟩

/-- The two tensors shared by a `ResidualBegin`/`ResidualEnd` pair:
`begin.fwd_residue` and `end.bwd_residue`.  Tensor values are modelled
elementwise as integers; `f.copy(src, dst)` overwrites, `f.add(a, b, out)`
writes `a + b`. -/
structure ResidualPair where
  fwd_residue : ℤ
  bwd_residue : ℤ
  deriving DecidableEq, Repr

/-- `ResidualBegin.training`, forward phase:
`f.copy(x, self.fwd_residue); grad = yield x`. -/
def beginTrainingFwd (s : ResidualPair) (x : ℤ) : ResidualPair × ℤ :=
  ({s with fwd_residue := x}, x)

/-- `ResidualBegin.training`, backward phase:
`f.add(self.end.bwd_residue, grad, self.end.bwd_residue);
yield self.end.bwd_residue`. -/
def beginTrainingBwd (s : ResidualPair) (grad : ℤ) : ResidualPair × ℤ :=
  ({s with bwd_residue := s.bwd_residue + grad}, s.bwd_residue + grad)

/-- `ResidualBegin.inference`: `f.copy(x, self.fwd_residue); return x`. -/
def beginInference (s : ResidualPair) (x : ℤ) : ResidualPair × ℤ :=
  ({s with fwd_residue := x}, x)

/-- `ResidualEnd.training`, forward phase:
`f.add(self.begin.fwd_residue, x, self.begin.fwd_residue);
grad = yield self.begin.fwd_residue`. -/
def endTrainingFwd (s : ResidualPair) (x : ℤ) : ResidualPair × ℤ :=
  ({s with fwd_residue := s.fwd_residue + x}, s.fwd_residue + x)

/-- `ResidualEnd.training`, backward phase:
`f.copy(grad, self.bwd_residue); yield grad`. -/
def endTrainingBwd (s : ResidualPair) (grad : ℤ) : ResidualPair × ℤ :=
  ({s with bwd_residue := grad}, grad)

/-- `ResidualEnd.inference`:
`f.add(self.begin.fwd_residue, x, self.begin.fwd_residue);
return self.begin.fwd_residue`. -/
def endInference (s : ResidualPair) (x : ℤ) : ResidualPair × ℤ :=
  ({s with fwd_residue := s.fwd_residue + x}, s.fwd_residue + x)

/-- **C4, counterexample to the claim as stated.**  `ResidualBegin`'s
backward does not return the gradient unchanged: with `bwd_residue = 1` and
incoming gradient `2` it returns the accumulated `3`. -/
theorem residual_begin_backward_cex :
    (beginTrainingBwd ⟨0, 1⟩ 2).1.bwd_residue = 3 ∧
    (beginTrainingBwd ⟨0, 1⟩ 2).2 ≠ 2 := by
  decide

/-- **C4 (amended).**  `ResidualBegin`'s training protocol caches its input
(copying `x` into `fwd_residue` before yielding the forward value);
`ResidualEnd`'s inference produces `begin.fwd_residue + x`; on backward,
`ResidualEnd` returns `grad` unchanged while copying it into `bwd_residue`,
and `ResidualBegin` accumulates `grad` into `end.bwd_residue` and returns the
accumulated `bwd_residue + grad` (not the unchanged `grad`). -/
theorem residual_protocol :
    (∀ (s : ResidualPair) (x : ℤ),
      (beginTrainingFwd s x).1.fwd_residue = x ∧ (beginTrainingFwd s x).2 = x) ∧
    (∀ (s : ResidualPair) (x : ℤ),
      (endInference s x).2 = s.fwd_residue + x) ∧
    (∀ (s : ResidualPair) (grad : ℤ),
      (endTrainingBwd s grad).2 = grad ∧
      (endTrainingBwd s grad).1.bwd_residue = grad) ∧
    (∀ (s : ResidualPair) (grad : ℤ),
      (beginTrainingBwd s grad).2 = s.bwd_residue + grad ∧
      (beginTrainingBwd s grad).1.bwd_residue = s.bwd_residue + grad) :=
  ⟨fun s x => ⟨rfl, rfl⟩, fun s x => rfl,
    fun s grad => ⟨rfl, rfl⟩, fun s grad => ⟨rfl, rfl⟩⟩

/-- A Python attribute value as inspected by `force_use_bf16`: either an
`_nvte.DType` or anything else. -/
inductive AttrVal where
  | dtypeVal (d : NVTEDType)
  | otherVal (tag : ℕ)
  deriving DecidableEq, Repr

/-- Modelled from the spec: an operation descriptor of the sequential
pipeline (`sequential/ops.py` is not part of the sources); per the spec every
operation carries its internal numeric-type annotations (resolved
input/output types included) in attributes whose names end in `_dtype`.
Attribute names are lists of character codes. -/
structure SeqOp where
  attrs : List (List ℕ × AttrVal)
  deriving DecidableEq, Repr

/-- The character codes of the string `_dtype`. -/
def dtypeSuffix : List ℕ := [95, 100, 116, 121, 112, 101]

/-- `attr.endswith("_dtype")`. -/
def endsWithDtype (n : List ℕ) : Bool := dtypeSuffix.isSuffixOf n

/-- `force_use_bf16` on one op: every attribute ending in `_dtype` whose
value is an fp8 `_nvte.DType` is set to `_nvte.DType.BFloat16`. -/
def forceUseBF16Op (op : SeqOp) : SeqOp :=
  ⟨op.attrs.map (fun a =>
    if endsWithDtype a.1 then
      match a.2 with
      | .dtypeVal d => if d.isFP8 then (a.1, .dtypeVal .BFloat16) else a
      | .otherVal _ => a
    else a)⟩

/-- `force_use_bf16(ops)` over the whole op list. -/
def force_use_bf16 (ops : List SeqOp) : List SeqOp := ops.map forceUseBF16Op

/-- Fusion modes of `get_fused_op_list`. -/
inductive FuseMode where
  | inference
  | forward
  | backward

/-- The three fused lists held by a `ComputePipeline` (each entry a group of
elementary ops collapsed into one unit). -/
structure SeqPipeline where
  inf : List (List SeqOp)
  fwdItems : List (List SeqOp)
  bwdItems : List (List SeqOp)

/-- `ComputePipeline.__init__` (value-level): deep-copy is identity on
values; when `env.fp8_enabled` is false, `force_use_bf16` runs BEFORE any
fusion; when `env.world_size > 1`, `model_parallel_transform` raises
`NotImplementedError`; then the three fused lists are built from the
(possibly downgraded) ops.  `fuse` abstracts `get_fused_op_list`
(`fusions.py` is not part of the sources); per the spec it only groups
(possibly fuses) the given operations, never altering their type
annotations. -/
def computePipelineInit (fuse : List SeqOp → FuseMode → List (List SeqOp))
    (ops : List SeqOp) (fp8Enabled : Bool) (worldSize : ℕ) :
    Except String SeqPipeline :=
  let ops1 := if fp8Enabled then ops else force_use_bf16 ops
  if worldSize > 1 then .error "NotImplementedError"
  else .ok ⟨fuse ops1 .inference, fuse ops1 .forward, fuse ops1 .backward⟩

theorem forceUseBF16Op_no_fp8 (op : SeqOp) :
    ∀ a ∈ (forceUseBF16Op op).attrs, endsWithDtype a.1 = true →
    ∀ d, a.2 = .dtypeVal d → d.isFP8 = false := by
  intro a ha hsuffix d hval
  simp only [forceUseBF16Op, List.mem_map] at ha
  obtain ⟨a0, ha0, rfl⟩ := ha
  by_cases hsuf0 : endsWithDtype a0.1 = true
  · rw [if_pos hsuf0] at hsuffix hval
    match hv0 : a0.2 with
    | .dtypeVal d0 =>
      simp only [hv0] at hval
      by_cases hfp8 : d0.isFP8 = true
      · rw [if_pos hfp8] at hval
        simp only [AttrVal.dtypeVal.injEq] at hval
        subst hval
        rfl
      · rw [if_neg hfp8] at hval
        rw [hv0] at hval
        simp only [AttrVal.dtypeVal.injEq] at hval
        subst hval
        exact Bool.eq_false_iff.mpr hfp8
    | .otherVal t =>
      simp only [hv0] at hval
      exact absurd hval (by simp)
  · rw [if_neg hsuf0] at hsuffix
    exact absurd hsuffix hsuf0

/-- **C3.** With `fp8_enabled = False`, pipeline construction downgrades all
low-precision type annotations to `BFloat16` before fusion: for any fusion
that only groups the operations it is given, every operation reachable in
any of the three fused lists of the constructed pipeline has no `_dtype`
attribute left at an 8-bit floating type — in particular its resolved
input/output types are not FP8. -/
theorem pipeline_no_fp8_when_disabled
    (fuse : List SeqOp → FuseMode → List (List SeqOp))
    (hfuse : ∀ ops mode, ∀ g ∈ fuse ops mode, ∀ op ∈ g, op ∈ ops)
    (ops : List SeqOp) (worldSize : ℕ) (p : SeqPipeline)
    (h : computePipelineInit fuse ops false worldSize = .ok p) :
    ∀ g ∈ p.inf ++ p.fwdItems ++ p.bwdItems, ∀ op ∈ g, ∀ a ∈ op.attrs,
      endsWithDtype a.1 = true → ∀ d, a.2 = .dtypeVal d → d.isFP8 = false := by
  intro g hg op hop a ha hsuffix d hval
  unfold computePipelineInit at h
  by_cases hws : worldSize > 1
  · rw [if_pos hws] at h
    exact absurd h (by simp)
  · rw [if_neg hws] at h
    simp only [Bool.false_eq_true, if_false, Except.ok.injEq] at h
    subst h
    have hmem : op ∈ force_use_bf16 ops := by
      simp only [List.mem_append] at hg
      rcases hg with (hg | hg) | hg
      · exact hfuse _ FuseMode.inference g hg op hop
      · exact hfuse _ FuseMode.forward g hg op hop
      · exact hfuse _ FuseMode.backward g hg op hop
    simp only [force_use_bf16, List.mem_map] at hmem
    obtain ⟨op0, -, rfl⟩ := hmem
    exact forceUseBF16Op_no_fp8 op0 a ha hsuffix d hval

theorem pipeline_no_fp8_when_disabled_witness :
    (∀ ops mode, ∀ g ∈ (fun (l : List SeqOp) (_ : FuseMode) => [l]) ops mode,
      ∀ op ∈ g, op ∈ ops) ∧
    computePipelineInit (fun l _ => [l])
      [⟨[([120, 95, 100, 116, 121, 112, 101], AttrVal.dtypeVal NVTEDType.FP8E4M3)]⟩]
      false 1 =
      .ok ⟨[[⟨[([120, 95, 100, 116, 121, 112, 101],
          AttrVal.dtypeVal NVTEDType.BFloat16)]⟩]],
        [[⟨[([120, 95, 100, 116, 121, 112, 101],
          AttrVal.dtypeVal NVTEDType.BFloat16)]⟩]],
        [[⟨[([120, 95, 100, 116, 121, 112, 101],
          AttrVal.dtypeVal NVTEDType.BFloat16)]⟩]]⟩ ∧
    (∀ g ∈ ([[SeqOp.mk [([120, 95, 100, 116, 121, 112, 101],
          AttrVal.dtypeVal NVTEDType.BFloat16)]]] : List (List SeqOp)) ++
        [[⟨[([120, 95, 100, 116, 121, 112, 101],
          AttrVal.dtypeVal NVTEDType.BFloat16)]⟩]] ++
        [[⟨[([120, 95, 100, 116, 121, 112, 101],
          AttrVal.dtypeVal NVTEDType.BFloat16)]⟩]],
      ∀ op ∈ g, ∀ a ∈ op.attrs,
        endsWithDtype a.1 = true → ∀ d, a.2 = .dtypeVal d → d.isFP8 = false) := by
  refine ⟨fun ops mode g hg op hop => by
    simp only [List.mem_singleton] at hg
    subst hg
    exact hop, rfl, ?_⟩
  exact pipeline_no_fp8_when_disabled (fun l _ => [l])
    (fun ops mode g hg op hop => by
      simp only [List.mem_singleton] at hg
      subst hg
      exact hop)
    [⟨[([120, 95, 100, 116, 121, 112, 101], AttrVal.dtypeVal NVTEDType.FP8E4M3)]⟩]
    1 _ rfl

/-- Strip a prefix from a key: `some rest` when `k = p ++ rest`
(Python `name.startswith(op_name)` plus `name[len(op_name):]`). -/
def stripPre : List ℕ → List ℕ → Option (List ℕ)
  | [], k => some k
  | _ :: _, [] => none
  | p :: ps, c :: cs => if c = p then stripPre ps cs else none

theorem stripPre_eq_some : ∀ {p k r : List ℕ},
    stripPre p k = some r ↔ k = p ++ r := by
  intro p
  induction p with
  | nil =>
    intro k r
    simp [stripPre, eq_comm]
  | cons a ps ih =>
    intro k r
    cases k with
    | nil => simp [stripPre]
    | cons c cs =>
      by_cases hc : c = a
      · subst hc
        simp [stripPre, ih]
      · simp [stripPre, hc, Ne.symm hc]

theorem stripPre_self_append (p k : List ℕ) : stripPre p (p ++ k) = some k :=
  stripPre_eq_some.mpr rfl

/-- The image of a context under key-prefixing
(`{op_name + name: tensor for name, tensor in ctx.items()}`): a lookup at a
prefixed key reads the original context at the stripped key. -/
def prefCtx {τ : Type} (p : List ℕ) (m : Ctx τ) : Ctx τ := fun k =>
  match stripPre p k with
  | some rest => m rest
  | none => none

/-- `dict |=` (right-biased union). -/
def ctxUnion {τ : Type} (m1 m2 : Ctx τ) : Ctx τ := fun k =>
  match m2 k with
  | some v => some v
  | none => m1 k

/-- An operation as consumed by `SelfContainedOp.forward`: whether it is a
`FusedOp`, its `name`, and its `forward(x)` returning the activation and the
saved-for-backward context. -/
structure FOp (τ : Type) where
  isFusedOp : Bool
  name : List ℕ
  fwd : τ → τ × Ctx τ

/-- The loop body of `SelfContainedOp.forward`: thread `x`, namespace each
non-fused op's context by its name, and merge everything into `full_ctx`. -/
def scForwardAux {τ : Type} : List (FOp τ) → τ → Ctx τ → τ × Ctx τ
  | [], x, acc => (x, acc)
  | op :: rest, x, acc =>
    let r := op.fwd x
    let c := if op.isFusedOp then r.2 else prefCtx op.name r.2
    scForwardAux rest r.1 (ctxUnion acc c)

/-- `SelfContainedOp.forward`: run the members on `x` starting from the empty
`Context()`. -/
def scForward {τ : Type} (fwds : List (FOp τ)) (x : τ) : τ × Ctx τ :=
  scForwardAux fwds x (emptyCtx τ)

theorem scForwardAux_append {τ : Type} :
    ∀ (l1 l2 : List (FOp τ)) (x : τ) (acc : Ctx τ),
    scForwardAux (l1 ++ l2) x acc =
      scForwardAux l2 (scForwardAux l1 x acc).1 (scForwardAux l1 x acc).2 := by
  intro l1
  induction l1 with
  | nil => intro l2 x acc; rfl
  | cons op rest ih => intro l2 x acc; exact ih l2 _ _

/-- Decimal digit string of a natural number (`f"{i}"`), as character
codes. -/
def decDigits (n : ℕ) : List ℕ :=
  if n < 10 then [48 + n]
  else decDigits (n / 10) ++ [48 + n % 10]
  termination_by n
  decreasing_by exact Nat.div_lt_self (by omega) (by omega)

/-- Reading a digit string back (decimal evaluation). -/
def valDigits (l : List ℕ) : ℕ := l.foldl (fun acc d => 10 * acc + (d - 48)) 0

theorem valDigits_gen : ∀ (l : List ℕ) (d : ℕ),
    (l ++ [d]).foldl (fun acc e => 10 * acc + (e - 48)) 0 =
      10 * l.foldl (fun acc e => 10 * acc + (e - 48)) 0 + (d - 48) := by
  intro l d
  rw [List.foldl_append]
  rfl

theorem valDigits_decDigits : ∀ n : ℕ, valDigits (decDigits n) = n := by
  intro n
  induction n using decDigits.induct with
  | case1 n h =>
    rw [decDigits, if_pos h]
    simp [valDigits]
  | case2 n h ih =>
    rw [decDigits, if_neg h]
    unfold valDigits at ih ⊢
    rw [valDigits_gen, ih]
    omega

theorem decDigits_inj {a b : ℕ} (h : decDigits a = decDigits b) : a = b := by
  have ha := valDigits_decDigits a
  have hb := valDigits_decDigits b
  rw [h] at ha
  omega

theorem decDigits_digits : ∀ n : ℕ, ∀ d ∈ decDigits n, 48 ≤ d ∧ d ≤ 57 := by
  intro n
  induction n using decDigits.induct with
  | case1 n h =>
    rw [decDigits, if_pos h]
    intro d hd
    simp only [List.mem_singleton] at hd
    omega
  | case2 n h ih =>
    rw [decDigits, if_neg h]
    intro d hd
    rcases List.mem_append.mp hd with hd1 | hd2
    · exact ih d hd1
    · simp only [List.mem_singleton] at hd2
      have := Nat.mod_lt n (show 0 < 10 by omega)
      omega

/-- `name_ops` name assignment: op at index `i` of class `cls` gets the name
`f"{i}({cls})"`. -/
def opName (i : ℕ) (cls : List ℕ) : List ℕ :=
  decDigits i ++ 40 :: (cls ++ [41])

theorem eq_of_append_eq_append_sep : ∀ {a b u v : List ℕ},
    (∀ d ∈ a, d ≠ 40) → (∀ d ∈ b, d ≠ 40) →
    a ++ 40 :: u = b ++ 40 :: v → a = b := by
  intro a
  induction a with
  | nil =>
    intro b u v ha hb h
    cases b with
    | nil => rfl
    | cons y b2 =>
      simp only [List.nil_append, List.cons_append, List.cons.injEq] at h
      exact absurd h.1.symm (hb y (by simp))
  | cons x a2 ih =>
    intro b u v ha hb h
    cases b with
    | nil =>
      simp only [List.cons_append, List.nil_append, List.cons.injEq] at h
      exact absurd h.1 (ha x (by simp))
    | cons y b2 =>
      simp only [List.cons_append, List.cons.injEq] at h
      rw [ih (fun d hd => ha d (by simp [hd])) (fun d hd => hb d (by simp [hd]))
        h.2]
      rw [h.1]

theorem opName_mutIncomp {i j : ℕ} (c1 c2 : List ℕ) (hij : i ≠ j) :
    ∀ r s, opName i c1 ++ r ≠ opName j c2 ++ s := by
  intro r s heq
  unfold opName at heq
  rw [List.append_assoc, List.append_assoc] at heq
  simp only [List.cons_append] at heq
  have hdig : ∀ n : ℕ, ∀ d ∈ decDigits n, d ≠ 40 := by
    intro n d hd
    have := decDigits_digits n d hd
    omega
  exact hij (decDigits_inj
    (eq_of_append_eq_append_sep (hdig i) (hdig j) heq))

/-- An op leaves the namespace `n` of the merged context untouched: either it
is a `FusedOp` whose saved keys never lie in the namespace, or a plain op
whose assigned name is append-incomparable with `n`. -/
def avoidsNamespace {τ : Type} (n : List ℕ) (op : FOp τ) : Prop :=
  (op.isFusedOp = true ∧
    ∀ y k, ((op.fwd y).2 k).isSome → stripPre n k = none) ∨
  (op.isFusedOp = false ∧ ∀ r s, n ++ r ≠ op.name ++ s)

theorem scForwardAux_untouched {τ : Type} (n : List ℕ) :
    ∀ (fwds : List (FOp τ)) (x : τ) (acc : Ctx τ),
    (∀ op ∈ fwds, avoidsNamespace n op) →
    ∀ k, (scForwardAux fwds x acc).2 (n ++ k) = acc (n ++ k) := by
  intro fwds
  induction fwds with
  | nil => intro x acc hall k; rfl
  | cons op rest ih =>
    intro x acc hall k
    have hstep : scForwardAux (op :: rest) x acc =
        scForwardAux rest (op.fwd x).1
          (ctxUnion acc (if op.isFusedOp then (op.fwd x).2
            else prefCtx op.name (op.fwd x).2)) := rfl
    rw [hstep, ih _ _ (fun q hq => hall q (by simp [hq])) k]
    have hnone : (if op.isFusedOp then (op.fwd x).2
        else prefCtx op.name (op.fwd x).2) (n ++ k) = none := by
      rcases hall op (by simp) with ⟨hf, hclean⟩ | ⟨hnf, hincomp⟩
      · rw [if_pos hf]
        by_cases hs : ((op.fwd x).2 (n ++ k)).isSome
        · have := hclean x (n ++ k) hs
          rw [stripPre_self_append] at this
          exact absurd this (by simp)
        · exact Option.not_isSome_iff_eq_none.mp hs
      · rw [if_neg (by simp [hnf])]
        unfold prefCtx
        match hsp : stripPre op.name (n ++ k) with
        | some rest2 =>
          exact absurd (stripPre_eq_some.mp hsp) (hincomp k rest2)
        | none => rfl
    unfold ctxUnion
    rw [hnone]

/-- **C7.** For a `SelfContainedOp` whose plain (non-fused) members carry the
distinct index-prefixed names assigned by `name_ops` (`f"{i}(Class)"`), and
whose fused members save no key inside a plain member's namespace, the
context round-trips: the namespaced slice of the merged unit context that
`SelfContainedOp.backward` hands to a plain op is exactly the key-value
mapping that this op's own forward saved — no collision, no leakage. -/
theorem sc_context_roundtrip {τ : Type} (x : τ)
    (pre post : List (FOp τ)) (op : FOp τ) (i : ℕ) (cls : List ℕ)
    (hop : op.isFusedOp = false)
    (hname : op.name = opName i cls)
    (hothers : ∀ q ∈ pre ++ post, q.isFusedOp = false →
      ∃ j c2, q.name = opName j c2 ∧ j ≠ i)
    (hfused : ∀ q ∈ pre ++ post, q.isFusedOp = true →
      ∀ y k, ((q.fwd y).2 k).isSome → stripPre op.name k = none) :
    ∀ k, extractCtx op.name (scForward (pre ++ op :: post) x).2 k =
      (op.fwd (scForwardAux pre x (emptyCtx τ)).1).2 k := by
  have havoid : ∀ q ∈ pre ++ post, avoidsNamespace op.name q := by
    intro q hq
    by_cases hf : q.isFusedOp = true
    · exact Or.inl ⟨hf, hfused q hq hf⟩
    · obtain ⟨j, c2, hqname, hji⟩ :=
        hothers q hq (Bool.eq_false_iff.mpr hf)
      refine Or.inr ⟨Bool.eq_false_iff.mpr hf, ?_⟩
      intro r s
      rw [hname, hqname]
      exact opName_mutIncomp cls c2 (Ne.symm hji) r s
  intro k
  unfold scForward extractCtx
  rw [scForwardAux_append]
  have hstep : scForwardAux (op :: post)
      (scForwardAux pre x (emptyCtx τ)).1 (scForwardAux pre x (emptyCtx τ)).2 =
      scForwardAux post (op.fwd (scForwardAux pre x (emptyCtx τ)).1).1
        (ctxUnion (scForwardAux pre x (emptyCtx τ)).2
          (if op.isFusedOp
            then (op.fwd (scForwardAux pre x (emptyCtx τ)).1).2
            else prefCtx op.name
              (op.fwd (scForwardAux pre x (emptyCtx τ)).1).2)) := rfl
  rw [hstep]
  rw [scForwardAux_untouched op.name post _ _
    (fun q hq => havoid q (by simp [hq])) k]
  unfold ctxUnion
  rw [if_neg (by simp [hop])]
  unfold prefCtx
  rw [stripPre_self_append]
  cases hck : (op.fwd (scForwardAux pre x (emptyCtx τ)).1).2 k with
  | some v => simp only [hck]
  | none =>
    simp only [hck]
    rw [scForwardAux_untouched op.name pre _ _
      (fun q hq => havoid q (by simp [hq])) k]
    rfl

theorem sc_context_roundtrip_witness :
    ((FOp.mk false (opName 0 [65])
        (fun x : ℤ => (x + 1,
          fun k => if k = [107] then some x else none))).isFusedOp = false) ∧
    extractCtx (opName 0 [65])
      (scForward
        [⟨false, opName 0 [65],
          fun x : ℤ => (x + 1, fun k => if k = [107] then some x else none)⟩,
          ⟨false, opName 1 [66],
            fun x : ℤ => (x * 2, fun k => if k = [107] then some (x + 5) else none)⟩]
        3).2 [107] = some 3 := by
  refine ⟨rfl, ?_⟩
  have happ := sc_context_roundtrip (τ := ℤ) 3 []
    [⟨false, opName 1 [66],
      fun x : ℤ => (x * 2, fun k => if k = [107] then some (x + 5) else none)⟩]
    ⟨false, opName 0 [65],
      fun x : ℤ => (x + 1, fun k => if k = [107] then some x else none)⟩
    0 [65] rfl rfl
    (fun q hq hnf => by
      simp only [List.nil_append, List.mem_singleton] at hq
      subst hq
      exact ⟨1, [66], rfl, by omega⟩)
    (fun q hq hf => by
      simp only [List.nil_append, List.mem_singleton] at hq
      subst hq
      exact absurd hf (by decide))
  exact (happ [107]).trans rfl

/-- The opaque numeric backend (`generic_tensor` primitives `f.gemm`,
`f.transpose`, `f.layer_norm`, `f.add`, `f.gelu`, `f.dropout`, `f.cast`),
value-level: each primitive is an uninterpreted function on tensor values
`τ`; `layer_norm_inf` computes the same normalization value as
`layer_norm`'s activation output (spec §4.1).  `E` is the type of the
`eps` hyperparameter, `P` of the dropout probability. -/
structure Backend (τ E P : Type) where
  gemmF : τ → τ → τ
  transposeF : τ → τ
  lnF : E → Bool → τ → τ → τ → τ
  lnMu : E → Bool → τ → τ → τ → τ
  lnRsigma : E → Bool → τ → τ → τ → τ
  addF : τ → τ → τ
  geluF : τ → τ
  reluF : τ → τ
  dropoutF : τ → P → τ
  castF : τ → τ

/-- An operation of `sequential_new/common_back/ops.py` with its tensor
buffers as store cells (natural-number indices): parameters and
supplementary tensors are pre-allocated, mutated in place.  `inplace` encodes
the in-place branch condition of the op's `inference` method
(`output_type == input_type` and, for `Gemm`, shape preservation; for
`Transpose`, `input_shape == act_shape`, which selects the in-place branch of
both paths).  `DotProductAttention` is a stub in the source (no
`training`/`inference` bodies) and the communication ops are unreachable on a
single device (`world_size > 1` construction raises), so they carry no
forward semantics to compare. -/
inductive NOp (E P : Type) where
  | identity
  | transpose (act : ℕ) (inplace : Bool)
  | gemm (w wt xt act : ℕ) (inplace : Bool)
  | layerNorm (w b act mu rsigma : ℕ) (eps : E) (zcg : Bool) (inplace : Bool)
  | bias (b : ℕ)
  | gelu (act : ℕ) (inplace : Bool)
  | relu (act : ℕ) (inplace : Bool)
  | dropout (p : P)
  | cast (act : ℕ)
  | residualBegin (fr : ℕ)
  | residualEnd (fr br : ℕ)

/-- The cells (buffers) owned or referenced by an op. -/
def NOp.cells {E P : Type} : NOp E P → List ℕ
  | .identity => []
  | .transpose act _ => [act]
  | .gemm w wt xt act _ => [w, wt, xt, act]
  | .layerNorm w b act mu rsigma _ _ _ => [w, b, act, mu, rsigma]
  | .bias b => [b]
  | .gelu act _ => [act]
  | .relu act _ => [act]
  | .dropout _ => []
  | .cast act => [act]
  | .residualBegin fr => [fr]
  | .residualEnd fr br => [fr, br]

/-- Cells written by only one of the two execution paths (training writes
them, inference may not, or writes elsewhere). -/
def NOp.asymCells {E P : Type} : NOp E P → List ℕ
  | .gemm _ wt _ act _ => [wt, act]
  | .layerNorm _ _ act mu rsigma _ _ _ => [act, mu, rsigma]
  | .gelu act _ => [act]
  | .relu act _ => [act]
  | _ => []

/-- Intra-op buffer distinctness (distinct pre-allocated tensors). -/
def NOp.internalOk {E P : Type} : NOp E P → Bool
  | .gemm w wt _ _ _ => wt != w
  | .layerNorm _ _ act mu rsigma _ _ _ => (act != mu) && (act != rsigma)
  | _ => true

/-- All cells of an op list. -/
def cellsList {E P : Type} (ops : List (NOp E P)) : List ℕ :=
  ops.flatMap NOp.cells

/-- Which cell the training forward yields the activation in. -/
def trainOutCell {E P : Type} : NOp E P → ℕ → ℕ
  | .identity, y => y
  | .transpose act inplace, y => if inplace then y else act
  | .gemm _ _ _ act _, _ => act
  | .layerNorm _ _ act _ _ _ _ _, _ => act
  | .bias _, y => y
  | .gelu act _, _ => act
  | .relu act _, _ => act
  | .dropout _, y => y
  | .cast act, _ => act
  | .residualBegin _, y => y
  | .residualEnd fr _, _ => fr

/-- Which cell `inference` returns. -/
def infOutCell {E P : Type} : NOp E P → ℕ → ℕ
  | .identity, y => y
  | .transpose act inplace, y => if inplace then y else act
  | .gemm _ _ _ act inplace, y => if inplace then y else act
  | .layerNorm _ _ act _ _ _ _ inplace, y => if inplace then y else act
  | .bias _, y => y
  | .gelu act inplace, y => if inplace then y else act
  | .relu act inplace, y => if inplace then y else act
  | .dropout _, y => y
  | .cast act, _ => act
  | .residualBegin _, y => y
  | .residualEnd fr _, _ => fr

/-- The store effect of the forward phase of `training` (everything before
`yield`), reading the data tensor from cell `x`. -/
def trainStep {τ E P : Type} (B : Backend τ E P) :
    NOp E P → (ℕ → τ) → ℕ → (ℕ → τ)
  | .identity, s, _ => s
  | .transpose act inplace, s, x =>
    if inplace then Function.update s x (B.transposeF (s x))
    else Function.update s act (B.transposeF (s x))
  | .gemm w wt _ act _, s, x =>
    let s1 := Function.update s wt (B.transposeF (s w))
    Function.update s1 act (B.gemmF (s1 x) (s1 w))
  | .layerNorm w b act mu rsigma eps zcg _, s, x =>
    let s1 := Function.update s act (B.lnF eps zcg (s x) (s w) (s b))
    let s2 := Function.update s1 mu (B.lnMu eps zcg (s x) (s w) (s b))
    Function.update s2 rsigma (B.lnRsigma eps zcg (s x) (s w) (s b))
  | .bias b, s, x => Function.update s x (B.addF (s x) (s b))
  | .gelu act _, s, x => Function.update s act (B.geluF (s x))
  | .relu act _, s, x => Function.update s act (B.reluF (s x))
  | .dropout p, s, x => Function.update s x (B.dropoutF (s x) p)
  | .cast act, s, x => Function.update s act (B.castF (s x))
  | .residualBegin fr, s, x => Function.update s fr (s x)
  | .residualEnd fr _, s, x => Function.update s fr (B.addF (s fr) (s x))

/-- The store effect of `inference`. -/
def infStep {τ E P : Type} (B : Backend τ E P) :
    NOp E P → (ℕ → τ) → ℕ → (ℕ → τ)
  | .identity, s, _ => s
  | .transpose act inplace, s, x =>
    if inplace then Function.update s x (B.transposeF (s x))
    else Function.update s act (B.transposeF (s x))
  | .gemm w _ _ act inplace, s, x =>
    if inplace then Function.update s x (B.gemmF (s x) (s w))
    else Function.update s act (B.gemmF (s x) (s w))
  | .layerNorm w b act _ _ eps zcg inplace, s, x =>
    if inplace then Function.update s x (B.lnF eps zcg (s x) (s w) (s b))
    else Function.update s act (B.lnF eps zcg (s x) (s w) (s b))
  | .bias b, s, x => Function.update s x (B.addF (s x) (s b))
  | .gelu act inplace, s, x =>
    if inplace then Function.update s x (B.geluF (s x))
    else Function.update s act (B.geluF (s x))
  | .relu act inplace, s, x =>
    if inplace then Function.update s x (B.reluF (s x))
    else Function.update s act (B.reluF (s x))
  | .dropout p, s, x => Function.update s x (B.dropoutF (s x) p)
  | .cast act, s, x => Function.update s act (B.castF (s x))
  | .residualBegin fr, s, x => Function.update s fr (s x)
  | .residualEnd fr _, s, x => Function.update s fr (B.addF (s fr) (s x))

/-- The training path forward-only: thread the data tensor through the
members' forward phases (the data flow of `SelfContainedOp.forward` across
the pipeline's units). -/
def runTrainingFwd {τ E P : Type} (B : Backend τ E P) :
    List (NOp E P) → (ℕ → τ) → ℕ → ((ℕ → τ) × ℕ)
  | [], s, x => (s, x)
  | op :: rest, s, x =>
    runTrainingFwd B rest (trainStep B op s x) (trainOutCell op x)

/-- `ComputePipeline.run_inference`: chain `op.inference` across the list. -/
def runInference {τ E P : Type} (B : Backend τ E P) :
    List (NOp E P) → (ℕ → τ) → ℕ → ((ℕ → τ) × ℕ)
  | [], s, x => (s, x)
  | op :: rest, s, x =>
    runInference B rest (infStep B op s x) (infOutCell op x)

/-- Well-formedness of a pipeline run: at every step the incoming data cell
is no op's buffer, path-asymmetric buffers are not read downstream, and each
op's own buffers are distinct (pre-allocated, separate tensors). -/
def wfRun {E P : Type} : List (NOp E P) → ℕ → ℕ → Prop
  | [], _, _ => True
  | op :: rest, yT, yI =>
    (yT ∉ op.cells ∧ yI ∉ op.cells) ∧
    (yT ∉ cellsList rest ∧ yI ∉ cellsList rest) ∧
    (∀ c ∈ op.asymCells, c ∉ cellsList rest) ∧
    op.internalOk = true ∧
    wfRun rest (trainOutCell op yT) (infOutCell op yI)

def wfRunDec {E P : Type} : (ops : List (NOp E P)) → (yT yI : ℕ) →
    Decidable (wfRun ops yT yI)
  | [], _, _ => isTrue trivial
  | op :: rest, yT, yI => by
    unfold wfRun
    letI := wfRunDec rest (trainOutCell op yT) (infOutCell op yI)
    infer_instance

instance {E P : Type} (ops : List (NOp E P)) (yT yI : ℕ) :
    Decidable (wfRun ops yT yI) := wfRunDec ops yT yI

theorem cellsList_cons {E P : Type} (op : NOp E P) (rest : List (NOp E P)) :
    cellsList (op :: rest) = op.cells ++ cellsList rest := by
  simp [cellsList]

theorem runInference_eq_runTrainingFwd_aux {τ E P : Type} (B : Backend τ E P) :
    ∀ (ops : List (NOp E P)) (sT sI : ℕ → τ) (yT yI : ℕ),
    wfRun ops yT yI →
    sT yT = sI yI →
    (∀ c ∈ cellsList ops, sT c = sI c) →
    (runTrainingFwd B ops sT yT).1 ((runTrainingFwd B ops sT yT).2) =
      (runInference B ops sI yI).1 ((runInference B ops sI yI).2) := by
  intro ops
  induction ops with
  | nil =>
    intro sT sI yT yI hwf hy hcells
    exact hy
  | cons op rest ih =>
    intro sT sI yT yI hwf hy hcells
    obtain ⟨⟨hyT, hyI⟩, ⟨hyTr, hyIr⟩, hasym, hint, hwf'⟩ := hwf
    have hrest : ∀ c ∈ cellsList rest, sT c = sI c := fun c hc =>
      hcells c (by rw [cellsList_cons]; exact List.mem_append_right _ hc)
    have hown : ∀ c ∈ NOp.cells op, sT c = sI c := fun c hc =>
      hcells c (by rw [cellsList_cons]; exact List.mem_append_left _ hc)
    cases op with
    | identity =>
      simp only [runTrainingFwd, runInference, trainStep, infStep,
        trainOutCell, infOutCell]
      exact ih sT sI yT yI hwf' hy hrest
    | transpose act inplace =>
      simp only [runTrainingFwd, runInference, trainStep, infStep,
        trainOutCell, infOutCell]
      cases inplace with
      | true =>
        simp only [if_pos]
        refine ih _ _ yT yI hwf' ?_ ?_
        · rw [Function.update_same, Function.update_same, hy]
        · intro c hc
          rw [Function.update_noteq (by rintro rfl; exact hyTr hc),
            Function.update_noteq (by rintro rfl; exact hyIr hc)]
          exact hrest c hc
      | false =>
        simp only [Bool.false_eq_true, if_false]
        refine ih _ _ act act hwf' ?_ ?_
        · rw [Function.update_same, Function.update_same, hy]
        · intro c hc
          by_cases hca : c = act
          · subst hca
            rw [Function.update_same, Function.update_same, hy]
          · rw [Function.update_noteq hca, Function.update_noteq hca]
            exact hrest c hc
    | bias b =>
      simp only [runTrainingFwd, runInference, trainStep, infStep,
        trainOutCell, infOutCell]
      refine ih _ _ yT yI hwf' ?_ ?_
      · rw [Function.update_same, Function.update_same]
        rw [hy, hown b (by simp [NOp.cells])]
      · intro c hc
        rw [Function.update_noteq (by rintro rfl; exact hyTr hc),
          Function.update_noteq (by rintro rfl; exact hyIr hc)]
        exact hrest c hc
    | dropout p =>
      simp only [runTrainingFwd, runInference, trainStep, infStep,
        trainOutCell, infOutCell]
      refine ih _ _ yT yI hwf' ?_ ?_
      · rw [Function.update_same, Function.update_same, hy]
      · intro c hc
        rw [Function.update_noteq (by rintro rfl; exact hyTr hc),
          Function.update_noteq (by rintro rfl; exact hyIr hc)]
        exact hrest c hc
    | cast act =>
      simp only [runTrainingFwd, runInference, trainStep, infStep,
        trainOutCell, infOutCell]
      refine ih _ _ act act hwf' ?_ ?_
      · rw [Function.update_same, Function.update_same, hy]
      · intro c hc
        by_cases hca : c = act
        · subst hca
          rw [Function.update_same, Function.update_same, hy]
        · rw [Function.update_noteq hca, Function.update_noteq hca]
          exact hrest c hc
    | residualBegin fr =>
      have hyTf : yT ≠ fr := fun h => hyT (by rw [h]; simp [NOp.cells])
      have hyIf : yI ≠ fr := fun h => hyI (by rw [h]; simp [NOp.cells])
      simp only [runTrainingFwd, runInference, trainStep, infStep,
        trainOutCell, infOutCell]
      refine ih _ _ yT yI hwf' ?_ ?_
      · rw [Function.update_noteq hyTf, Function.update_noteq hyIf, hy]
      · intro c hc
        by_cases hcf : c = fr
        · subst hcf
          rw [Function.update_same, Function.update_same, hy]
        · rw [Function.update_noteq hcf, Function.update_noteq hcf]
          exact hrest c hc
    | residualEnd fr br =>
      have hfr : sT fr = sI fr := hown fr (by simp [NOp.cells])
      simp only [runTrainingFwd, runInference, trainStep, infStep,
        trainOutCell, infOutCell]
      refine ih _ _ fr fr hwf' ?_ ?_
      · rw [Function.update_same, Function.update_same, hy, hfr]
      · intro c hc
        by_cases hcf : c = fr
        · subst hcf
          rw [Function.update_same, Function.update_same, hy, hfr]
        · rw [Function.update_noteq hcf, Function.update_noteq hcf]
          exact hrest c hc
    | gelu act inplace =>
      have hactR : ¬ act ∈ cellsList rest := hasym act (by simp [NOp.asymCells])
      simp only [runTrainingFwd, runInference, trainStep, infStep,
        trainOutCell, infOutCell]
      cases inplace with
      | true =>
        simp only [if_pos]
        refine ih _ _ act yI hwf' ?_ ?_
        · rw [Function.update_same, Function.update_same, hy]
        · intro c hc
          rw [Function.update_noteq (by rintro rfl; exact hactR hc),
            Function.update_noteq (by rintro rfl; exact hyIr hc)]
          exact hrest c hc
      | false =>
        simp only [Bool.false_eq_true, if_false]
        refine ih _ _ act act hwf' ?_ ?_
        · rw [Function.update_same, Function.update_same, hy]
        · intro c hc
          rw [Function.update_noteq (by rintro rfl; exact hactR hc),
            Function.update_noteq (by rintro rfl; exact hactR hc)]
          exact hrest c hc
    | relu act inplace =>
      have hactR : ¬ act ∈ cellsList rest := hasym act (by simp [NOp.asymCells])
      simp only [runTrainingFwd, runInference, trainStep, infStep,
        trainOutCell, infOutCell]
      cases inplace with
      | true =>
        simp only [if_pos]
        refine ih _ _ act yI hwf' ?_ ?_
        · rw [Function.update_same, Function.update_same, hy]
        · intro c hc
          rw [Function.update_noteq (by rintro rfl; exact hactR hc),
            Function.update_noteq (by rintro rfl; exact hyIr hc)]
          exact hrest c hc
      | false =>
        simp only [Bool.false_eq_true, if_false]
        refine ih _ _ act act hwf' ?_ ?_
        · rw [Function.update_same, Function.update_same, hy]
        · intro c hc
          rw [Function.update_noteq (by rintro rfl; exact hactR hc),
            Function.update_noteq (by rintro rfl; exact hactR hc)]
          exact hrest c hc
    | gemm w wt xt act inplace =>
      have hne : wt ≠ w := by
        simpa [NOp.internalOk, bne_iff_ne] using hint
      have hyTwt : yT ≠ wt := fun h => hyT (by rw [h]; simp [NOp.cells])
      have hwtR : ¬ wt ∈ cellsList rest := hasym wt (by simp [NOp.asymCells])
      have hactR : ¬ act ∈ cellsList rest := hasym act (by simp [NOp.asymCells])
      have hw : sT w = sI w := hown w (by simp [NOp.cells])
      simp only [runTrainingFwd, runInference, trainStep, infStep,
        trainOutCell, infOutCell]
      have hval : B.gemmF (Function.update sT wt (B.transposeF (sT w)) yT)
          (Function.update sT wt (B.transposeF (sT w)) w) =
          B.gemmF (sI yI) (sI w) := by
        rw [Function.update_noteq hyTwt, Function.update_noteq (Ne.symm hne),
          hy, hw]
      cases inplace with
      | true =>
        simp only [if_pos]
        refine ih _ _ act yI hwf' ?_ ?_
        · rw [Function.update_same, Function.update_same, hval]
        · intro c hc
          rw [Function.update_noteq (by rintro rfl; exact hactR hc),
            Function.update_noteq (by rintro rfl; exact hwtR hc),
            Function.update_noteq (by rintro rfl; exact hyIr hc)]
          exact hrest c hc
      | false =>
        simp only [Bool.false_eq_true, if_false]
        refine ih _ _ act act hwf' ?_ ?_
        · rw [Function.update_same, Function.update_same, hval]
        · intro c hc
          rw [Function.update_noteq (by rintro rfl; exact hactR hc),
            Function.update_noteq (by rintro rfl; exact hwtR hc),
            Function.update_noteq (by rintro rfl; exact hactR hc)]
          exact hrest c hc
    | layerNorm w b act mu rsigma eps zcg inplace =>
      have hne : act ≠ mu ∧ act ≠ rsigma := by
        simpa [NOp.internalOk, bne_iff_ne] using hint
      have hactR : ¬ act ∈ cellsList rest := hasym act (by simp [NOp.asymCells])
      have hmuR : ¬ mu ∈ cellsList rest := hasym mu (by simp [NOp.asymCells])
      have hrsR : ¬ rsigma ∈ cellsList rest :=
        hasym rsigma (by simp [NOp.asymCells])
      have hw : sT w = sI w := hown w (by simp [NOp.cells])
      have hbv : sT b = sI b := hown b (by simp [NOp.cells])
      simp only [runTrainingFwd, runInference, trainStep, infStep,
        trainOutCell, infOutCell]
      cases inplace with
      | true =>
        simp only [if_pos]
        refine ih _ _ act yI hwf' ?_ ?_
        · rw [Function.update_noteq hne.2, Function.update_noteq hne.1,
            Function.update_same, Function.update_same, hy, hw, hbv]
        · intro c hc
          rw [Function.update_noteq (by rintro rfl; exact hrsR hc),
            Function.update_noteq (by rintro rfl; exact hmuR hc),
            Function.update_noteq (by rintro rfl; exact hactR hc),
            Function.update_noteq (by rintro rfl; exact hyIr hc)]
          exact hrest c hc
      | false =>
        simp only [Bool.false_eq_true, if_false]
        refine ih _ _ act act hwf' ?_ ?_
        · rw [Function.update_noteq hne.2, Function.update_noteq hne.1,
            Function.update_same, Function.update_same, hy, hw, hbv]
        · intro c hc
          rw [Function.update_noteq (by rintro rfl; exact hrsR hc),
            Function.update_noteq (by rintro rfl; exact hmuR hc),
            Function.update_noteq (by rintro rfl; exact hactR hc),
            Function.update_noteq (by rintro rfl; exact hactR hc)]
          exact hrest c hc

/-- **C9.** For a pipeline built with low-precision disabled, running the
inference path (`run_inference` chaining `op.inference`) and running the
training path forward-only (threading `x` through the ops' `training`
generators up to their `yield`) on an identical input value and identical
parameter/buffer contents yields a numerically identical primary output —
for every backend, every op list whose buffers are well-formed
(distinct per op, data cell not a buffer, training-only buffers not read
downstream), and every pair of stores agreeing on the ops' cells and on the
input value. -/
theorem inference_matches_training_forward {τ E P : Type} (B : Backend τ E P)
    (ops : List (NOp E P)) (sT sI : ℕ → τ) (yT yI : ℕ)
    (hwf : wfRun ops yT yI) (hy : sT yT = sI yI)
    (hcells : ∀ c ∈ cellsList ops, sT c = sI c) :
    (runTrainingFwd B ops sT yT).1 ((runTrainingFwd B ops sT yT).2) =
      (runInference B ops sI yI).1 ((runInference B ops sI yI).2) :=
  runInference_eq_runTrainingFwd_aux B ops sT sI yT yI hwf hy hcells

def testBackend : Backend ℤ ℤ ℤ :=
  ⟨fun a b => a * b, fun a => -a, fun _ _ x w b => x + w + b,
    fun _ _ x w _ => x + w, fun _ _ x w _ => x - w, fun a b => a + b,
    fun a => a + 1, fun a => 2 * a, fun a p => a + p, fun a => a⟩

def testOps : List (NOp ℤ ℤ) :=
  [NOp.gemm 10 11 12 13 true, NOp.bias 14,
    NOp.layerNorm 15 16 17 18 19 1 false false, NOp.relu 20 true,
    NOp.transpose 21 false, NOp.transpose 22 true, NOp.relu 23 false]

def testStore : ℕ → ℤ := fun c => (c : ℤ)

theorem inference_matches_training_forward_witness :
    wfRun testOps 0 0 ∧
    (runTrainingFwd testBackend testOps testStore 0).1
        ((runTrainingFwd testBackend testOps testStore 0).2) =
      (runInference testBackend testOps testStore 0).1
        ((runInference testBackend testOps testStore 0).2) :=
  ⟨by decide,
    inference_matches_training_forward testBackend testOps testStore testStore
      0 0 (by decide) rfl (fun c hc => rfl)⟩

end TE
